import Mathlib

/-!
# cpp-logger: the lock-free ring logger (`cloggerv2.hpp`)

A shallow embedding of `class Clogger` of `cloggerv2.hpp`.

* Memory regions (`m_ring`, the mapping `wdata`, the consumer's `scratch`
  vector, the bytes behind a `string_view`) are functions `Nat → UInt8`.
* `size_t` values are natural numbers; every `size_t` addition and
  multiplication of the source is reduced modulo `2 ^ 64`.  The source's
  subtractions are only executed on operands for which they do not wrap
  (each is guarded by a comparison, or is `RING_SIZE - x` with `x` produced by
  `% RING_SIZE`), so they are written as subtraction on `Nat`.
* `sizeof(size_t)` is 8 and the byte order is little-endian (LP64 targets).
* The outcome of `mmap` is an input of the model: `mmap_ok n` tells whether a
  mapping of `n` bytes can be established.
-/

set_option autoImplicit false

/-- A region of bytes addressed by offset. -/
abbrev Mem := Nat → UInt8

/-- Modulus of `size_t` arithmetic. -/
def SIZE_MOD : Nat := 2 ^ 64

/-- The constant `static constexpr size_t RING_SIZE = 4 * 1024 * 1024`. -/
def RING_SIZE : Nat := 4 * 1024 * 1024

/-- The value of `sizeof(size_t)`. -/
def SIZEOF_SIZE_T : Nat := 8

/-- The call `memcpy(dst + d, src + s, n)`: the `n` bytes of `src` from offset `s` are
copied to `dst` from offset `d`; every other byte of `dst` stays. -/
def memcpy (dst : Mem) (d : Nat) (src : Mem) (s : Nat) (n : Nat) : Mem :=
  fun i => if d ≤ i ∧ i < d + n then src (s + (i - d)) else dst i

/-- The bytes behind `data.data()` of a `string_view`. -/
def dataPtr (data : List UInt8) : Mem := fun i => data.getD i 0

/-- Byte `i` of the object representation of a `size_t`
(`reinterpret_cast<const char*>(&msg_len)[i]`). -/
def sizeByte (msg_len i : Nat) : UInt8 := UInt8.ofNat (msg_len / 256 ^ i % 256)

/-- The members of `class Clogger`, together with the `scratch` vector that
`workerLoop` keeps across its iterations. -/
structure Clogger where
  m_head : Nat
  m_ring : Mem
  m_tail : Nat
  m_running : Bool
  wdata : Mem
  m_cursor : Nat
  fsize : Nat
  /-- Whether `m_thread.joinable()`. -/
  m_thread : Bool
  /-- Whether `fd != -1`. -/
  fd : Bool
  /-- Contents of `scratch`. -/
  scratch : Mem
  /-- The value of `scratch.size()`. -/
  scratch_size : Nat

namespace Clogger

/-- Lines 119-121 of `log`: the loop storing the length prefix,
`m_ring[(head + i) % RING_SIZE] = bytes(msg_len)[i]` for `i = 0 .. 7`. -/
def writeLen (ring : Mem) (head msg_len : Nat) : Mem :=
  (List.range SIZEOF_SIZE_T).foldl
    (fun r i => Function.update r ((head + i) % SIZE_MOD % RING_SIZE) (sizeByte msg_len i)) ring

/-- Lines 149-152 of `workerLoop`: the loop loading the length prefix,
`bytes(msg_len)[i] = m_ring[(tail + i) % RING_SIZE]` for `i = 0 .. 7`. -/
def readLen (ring : Mem) (tail : Nat) : Nat :=
  (List.range SIZEOF_SIZE_T).foldl
    (fun acc i => acc + (ring ((tail + i) % SIZE_MOD % RING_SIZE)).toNat * 256 ^ i) 0

/-- The `free_space` expression of `log` (lines 111-113). -/
def freeSpace (head tail : Nat) : Nat :=
  if head ≥ tail then RING_SIZE - (head - tail) else tail - head

/-- The drop test of `log` (line 115): `free_space <= packet_len + 1`. -/
def drops (s : Clogger) (data : List UInt8) : Bool :=
  let msg_len := data.length
  let packet_len := (SIZEOF_SIZE_T + msg_len) % SIZE_MOD
  decide (freeSpace s.m_head s.m_tail ≤ (packet_len + 1) % SIZE_MOD)

/-- The method `Clogger::log`. -/
def log (s : Clogger) (data : List UInt8) : Clogger :=
  let msg_len := data.length
  let packet_len := (SIZEOF_SIZE_T + msg_len) % SIZE_MOD
  let head := s.m_head
  let tail := s.m_tail
  let free_space := if head ≥ tail then RING_SIZE - (head - tail) else tail - head
  if free_space ≤ (packet_len + 1) % SIZE_MOD then
    s
  else
    let ring1 := writeLen s.m_ring head msg_len
    let data_start := (head + SIZEOF_SIZE_T) % SIZE_MOD % RING_SIZE
    let ring2 :=
      if (data_start + msg_len) % SIZE_MOD ≤ RING_SIZE then
        memcpy ring1 data_start (dataPtr data) 0 msg_len
      else
        let first_part := RING_SIZE - data_start
        memcpy (memcpy ring1 data_start (dataPtr data) 0 first_part)
          0 (dataPtr data) first_part (msg_len - first_part)
    { s with m_ring := ring2, m_head := (head + packet_len) % SIZE_MOD % RING_SIZE }

/-- The method `Clogger::resizeLog`; `none` is the `exit(1)` taken when the new mapping
cannot be established.  `ftruncate(fd, new_size)` leaves the bytes below the
old size and makes the bytes from the old size on read as zero. -/
def resizeLog (mmap_ok : Nat → Bool) (s : Clogger) : Option Clogger :=
  let new_size := s.fsize * 2 % SIZE_MOD
  let file : Mem := fun i => if i < s.fsize then s.wdata i else 0
  if mmap_ok new_size then some { s with wdata := file, fsize := new_size } else none

/-- What one iteration of the `while (true)` of `workerLoop` does. -/
inductive Outcome where
  /-- The `return` of line 144. -/
  | returned : Outcome
  /-- The `sleep_for` and `continue` of lines 145-146. -/
  | idle : Outcome
  /-- The `exit(1)` of `resizeLog`. -/
  | aborted : Outcome
  /-- The iteration ran to the store of `m_tail` on line 177. -/
  | next : Clogger → Outcome

/-- Lines 149-163 of `workerLoop`: decode the length, size `scratch`, copy the
payload out of the ring. -/
def dequeue (s : Clogger) : Clogger × Nat :=
  let tail := s.m_tail
  let msg_len := readLen s.m_ring tail
  let scratch_size := if s.scratch_size < msg_len then msg_len else s.scratch_size
  let scratch0 : Mem :=
    if s.scratch_size < msg_len then
      fun i => if i < s.scratch_size then s.scratch i else 0
    else s.scratch
  let data_start := (tail + SIZEOF_SIZE_T) % SIZE_MOD % RING_SIZE
  let scratch1 :=
    if (data_start + msg_len) % SIZE_MOD ≤ RING_SIZE then
      memcpy scratch0 0 s.m_ring data_start msg_len
    else
      let first_part := RING_SIZE - data_start
      memcpy (memcpy scratch0 0 s.m_ring data_start first_part)
        first_part s.m_ring 0 (msg_len - first_part)
  ({ s with scratch := scratch1, scratch_size := scratch_size }, msg_len)

/-- Lines 169-175 of `workerLoop`: copy the payload to the mapping at the
cursor, then the guarded separator.  This is the arithmetic of the source,
also for a copy that leaves the mapping: `copyInBounds` tells whether the copy
stays inside, and `Exec.step` treats a copy that does not as the death of the
worker. -/
def append (s : Clogger) (msg_len : Nat) : Clogger :=
  let wdata1 := memcpy s.wdata s.m_cursor s.scratch 0 msg_len
  let cursor1 := (s.m_cursor + msg_len) % SIZE_MOD
  if cursor1 < s.fsize then
    { s with wdata := Function.update wdata1 cursor1 10, m_cursor := (cursor1 + 1) % SIZE_MOD }
  else
    { s with wdata := wdata1, m_cursor := cursor1 }

/-- Lines 165-167 of `workerLoop`: the capacity check with its single call of
`resizeLog`. -/
def ensure (mmap_ok : Nat → Bool) (s : Clogger) (msg_len : Nat) : Option Clogger :=
  if (s.m_cursor + msg_len + 1) % SIZE_MOD > s.fsize then resizeLog mmap_ok s else some s

/-- One iteration of the loop of `Clogger::workerLoop` (lines 140-177), run
without interruption on the state `s` and following the arithmetic of the
source.  The interleaving of an iteration with the producer and the fate of a
copy that leaves the mapping are in `Exec.step`. -/
def workerBody (mmap_ok : Nat → Bool) (s : Clogger) : Outcome :=
  let tail := s.m_tail
  let head := s.m_head
  if head = tail then
    if !s.m_running then Outcome.returned else Outcome.idle
  else
    let (s1, msg_len) := dequeue s
    match ensure mmap_ok s1 msg_len with
    | none => Outcome.aborted
    | some g =>
      Outcome.next
        { append g msg_len with
          m_tail := (tail + SIZEOF_SIZE_T + msg_len) % SIZE_MOD % RING_SIZE }

/-- The state that an iteration which ran to line 177 leaves, if it did. -/
def Outcome.state : Outcome → Option Clogger
  | Outcome.next s => some s
  | _ => none

/-- The successful path of the constructor `Clogger::Clogger` (open, fstat and
mmap succeed) on a file whose bytes are `file`: lines 53-72.  A file of size 0
is extended to 4096 zero bytes. -/
def ctor (file : List UInt8) : Clogger :=
  let st_size := file.length
  { m_head := 0
    m_ring := fun _ => 0
    m_tail := 0
    m_running := true
    wdata := dataPtr file
    m_cursor := st_size
    fsize := if st_size = 0 then 4096 else st_size
    m_thread := true
    fd := true
    scratch := fun _ => 0
    scratch_size := 0 }

/-- The bytes of the file after `ftruncate(fd, m_cursor)` (line 84): the
mapped bytes below `m_cursor`; the file reads as zero past the mapped size. -/
def fileAfterTruncate (s : Clogger) : List UInt8 :=
  (List.range s.m_cursor).map (fun i => if i < s.fsize then s.wdata i else 0)

/-- The payload that the iteration starting in `s` copies out of the ring:
the first `msg_len` bytes of `scratch` after `dequeue`. -/
def payload (s : Clogger) : List UInt8 :=
  (List.range (dequeue s).2).map (dequeue s).1.scratch

/-- Number of bytes that `append g n` stores to the mapping: the payload and,
when the branch of line 172 is taken, the separator. -/
def storedBy (g : Clogger) (n : Nat) : Nat :=
  n + if (g.m_cursor + n) % SIZE_MOD < g.fsize then 1 else 0

end Clogger

/-- A logger together with the history of its execution: which payloads
`log` has stored in the ring, which payloads the consumer has copied out, and
how many bytes the consumer has stored to the mapping. -/
structure Run where
  state : Clogger
  accepted : List (List UInt8)
  dequeued : List (List UInt8)
  stored : Nat

/-- The two kinds of step of an execution: a call of `log` by the producer,
and one iteration of the loop of `workerLoop` by the consumer. -/
inductive Op where
  | log : List UInt8 → Op
  | consume : Op

namespace Run

/-- A freshly constructed logger, with an empty history. -/
def start (s : Clogger) : Run :=
  { state := s, accepted := [], dequeued := [], stored := 0 }

/-- The history after a call of `log`. -/
def afterLog (r : Run) (data : List UInt8) : Run :=
  { r with state := r.state.log data
           accepted := if r.state.drops data = true then r.accepted else r.accepted ++ [data] }

/-- The history after a loop iteration that ran to line 177 and left the
logger in `s1`. -/
def afterConsume (mmap_ok : Nat → Bool) (r : Run) (s1 : Clogger) : Run :=
  { state := s1
    accepted := r.accepted
    dequeued := r.dequeued ++ [r.state.payload]
    stored := r.stored +
      match Clogger.ensure mmap_ok r.state.dequeue.1 r.state.dequeue.2 with
      | some g => g.storedBy r.state.dequeue.2
      | none => 0 }

/-- One step of an execution; `none` when the process exits in `resizeLog`.
A `log` call and a loop iteration are each taken as one indivisible step.  An
iteration that finds the ring empty (it sleeps, or returns) leaves the
history as it is. -/
def step (mmap_ok : Nat → Bool) (r : Run) : Op → Option Run
  | Op.log data => some (r.afterLog data)
  | Op.consume =>
    match r.state.workerBody mmap_ok with
    | Clogger.Outcome.returned => some r
    | Clogger.Outcome.idle => some r
    | Clogger.Outcome.aborted => none
    | Clogger.Outcome.next s1 => some (r.afterConsume mmap_ok s1)

/-- An execution: the steps `ops` one after the other. -/
def run (mmap_ok : Nat → Bool) (r : Run) : List Op → Option Run
  | [] => some r
  | op :: ops => (r.step mmap_ok op).bind (fun r1 => run mmap_ok r1 ops)

/-- The method `Clogger::workerLoop` run on its own (no `log` in between), bounded by
`fuel` iterations.  `none` when the process exits in `resizeLog` or the loop
is still running after `fuel` iterations. -/
def workerLoop (mmap_ok : Nat → Bool) : Nat → Run → Option Run
  | 0, _ => none
  | fuel + 1, r =>
    match r.state.workerBody mmap_ok with
    | Clogger.Outcome.returned => some r
    | Clogger.Outcome.idle => workerLoop mmap_ok fuel r
    | Clogger.Outcome.aborted => none
    | Clogger.Outcome.next s1 => workerLoop mmap_ok fuel (r.afterConsume mmap_ok s1)

/-- The destructor `Clogger::~Clogger` of a logger whose worker thread was
started and stands at the top of its loop when the flag is cleared: clear the
running flag, join the worker (its loop runs on, at most `fuel` iterations),
unmap, truncate to `m_cursor`, close.  The result is the final history and the
bytes of the file.  The destructor for a worker at any point of its loop is
`Exec.close`. -/
def dtor (mmap_ok : Nat → Bool) (fuel : Nat) (r : Run) : Option (Run × List UInt8) :=
  (workerLoop mmap_ok fuel { r with state := { r.state with m_running := false } }).map
    (fun r1 => ({ r1 with state := { r1.state with m_thread := false, fd := false } },
                r1.state.fileAfterTruncate))

/-- The payloads passed to `log` in the steps `ops`, in order. -/
def logged : List Op → List (List UInt8)
  | [] => []
  | Op.log data :: ops => data :: logged ops
  | Op.consume :: ops => logged ops

/-- The bytes that appending the records `recs` should produce: each record
followed by one separator byte. -/
def written (recs : List (List UInt8)) : List UInt8 :=
  (recs.map (fun r => r ++ [10])).flatten

end Run



/-! ## The worker thread next to the producer

The loop of `workerLoop` reads `m_tail` and `m_head` (lines 140-141) and only
later, when it found them equal, the running flag (line 144).  The producer
may run between the two reads.  Here an iteration is two steps, `load` and
`act`, and the worker carries the loaded value of `m_head` between them.  The
worker is the only writer of `m_tail`, so the value it loaded on line 140 is
still `m_tail` when it acts. -/

namespace Clogger

/-- Whether the copy of line 169, `memcpy(wdata + m_cursor, scratch.data(),
msg_len)`, stays inside the `fsize` bytes of the mapping. -/
def copyInBounds (g : Clogger) (msg_len : Nat) : Bool :=
  decide (g.m_cursor + msg_len ≤ g.fsize)

/-- Where the worker thread stands in `workerLoop`. -/
inductive Pc where
  /-- At the top of the loop, before line 140. -/
  | top : Pc
  /-- After lines 140-141, holding the value read from `m_head`. -/
  | loaded : Nat → Pc
  /-- After the `return` of line 144. -/
  | returned : Pc
  /-- The copy of line 169 left the mapping: the rest of the loop is not run. -/
  | killed : Pc
  /-- The process ended in the `exit(1)` of `resizeLog`. -/
  | aborted : Pc
  deriving DecidableEq

end Clogger

/-- A logger with its history and the position of its worker thread. -/
structure Exec where
  run : Run
  pc : Clogger.Pc

/-- The events of an execution: a call of `log` by the producer, the store of
`false` to the running flag by the destructor (line 76), and the two steps of
a worker iteration. -/
inductive Ev where
  | log : List UInt8 → Ev
  | stop : Ev
  | load : Ev
  | act : Ev

namespace Exec

/-- A freshly constructed logger: empty history, worker at the top. -/
def start (s : Clogger) : Exec :=
  { run := Run.start s, pc := Clogger.Pc.top }

/-- The worker step `act`: line 143 to the end of the iteration, with `head`
the value loaded on line 141. -/
def act (mmap_ok : Nat → Bool) (y : Exec) (head : Nat) : Exec :=
  let s := y.run.state
  let tail := s.m_tail
  if head = tail then
    if !s.m_running then { y with pc := Clogger.Pc.returned }
    else { y with pc := Clogger.Pc.top }
  else
    let (s1, msg_len) := s.dequeue
    match Clogger.ensure mmap_ok s1 msg_len with
    | none => { y with pc := Clogger.Pc.aborted }
    | some g =>
      if g.copyInBounds msg_len then
        { run := y.run.afterConsume mmap_ok
            { g.append msg_len with
              m_tail := (tail + SIZEOF_SIZE_T + msg_len) % SIZE_MOD % RING_SIZE }
          pc := Clogger.Pc.top }
      else
        { y with pc := Clogger.Pc.killed }

/-- One event.  Nothing happens any more once the worker was killed or the
process exited; a worker event that is not the next one of the worker changes
nothing. -/
def step (mmap_ok : Nat → Bool) (y : Exec) (ev : Ev) : Exec :=
  match y.pc, ev with
  | Clogger.Pc.killed, _ => y
  | Clogger.Pc.aborted, _ => y
  | _, Ev.log data => { y with run := y.run.afterLog data }
  | _, Ev.stop =>
    { y with run := { y.run with state := { y.run.state with m_running := false } } }
  | Clogger.Pc.top, Ev.load => { y with pc := Clogger.Pc.loaded y.run.state.m_head }
  | Clogger.Pc.loaded head, Ev.act => act mmap_ok y head
  | _, _ => y

/-- The events `evs` one after the other. -/
def exec (mmap_ok : Nat → Bool) (y : Exec) (evs : List Ev) : Exec :=
  evs.foldl (step mmap_ok) y

/-- The call `m_thread.join()` (line 78): the worker runs on alone, from where
it stands, until it has returned; at most `fuel` steps.  `none` when the
worker was killed, the process exited, or the worker is still running. -/
def join (mmap_ok : Nat → Bool) : Nat → Exec → Option Exec
  | 0, _ => none
  | fuel + 1, y =>
    match y.pc with
    | Clogger.Pc.returned => some y
    | Clogger.Pc.killed => none
    | Clogger.Pc.aborted => none
    | Clogger.Pc.top => join mmap_ok fuel (step mmap_ok y Ev.load)
    | Clogger.Pc.loaded _ => join mmap_ok fuel (step mmap_ok y Ev.act)

/-- The destructor `Clogger::~Clogger` called while the worker stands anywhere
in its loop: clear the running flag, join the worker, unmap, truncate to
`m_cursor`, close.  The result is the final execution state and the bytes of
the file. -/
def close (mmap_ok : Nat → Bool) (fuel : Nat) (y : Exec) : Option (Exec × List UInt8) :=
  (join mmap_ok fuel (step mmap_ok y Ev.stop)).map
    (fun y1 => (y1, y1.run.state.fileAfterTruncate))

end Exec

/-! ## The constructor of `cloggerv2.hpp` with its failure paths -/

namespace Clogger

/-- The constructor `Clogger::Clogger` (lines 39-73).  `open_ok` and `fstat_ok`
tell whether `open` and `fstat` succeed, `mmap_ok` whether a mapping of the
given size can be established, `file` holds the bytes of the file at the path.
The members without an initialiser (`wdata`, `m_cursor`, `fsize`, `fd`) start
with the indeterminate values of `junk`; the ring, both cursors and the running
flag are initialised before the body runs.  After `close(fd)` the member `fd`
keeps its value, and a failed `mmap` leaves `wdata` unusable. -/
def construct (open_ok fstat_ok : Bool) (mmap_ok : Nat → Bool) (file : List UInt8)
    (junk : Clogger) : Clogger :=
  let s0 : Clogger :=
    { junk with
      m_head := 0
      m_ring := fun _ => 0
      m_tail := 0
      m_running := true
      m_thread := false
      scratch := fun _ => 0
      scratch_size := 0 }
  if !open_ok then
    { s0 with fd := false }
  else if !fstat_ok then
    { s0 with fd := true }
  else
    let st_size := file.length
    let fsize := if st_size = 0 then 4096 else st_size
    if !mmap_ok fsize then
      { s0 with fd := true, m_cursor := st_size, fsize := fsize }
    else
      { s0 with fd := true, m_cursor := st_size, fsize := fsize, wdata := dataPtr file,
                m_thread := true }

/-- The frame of a record as the claims describe it: the 8 bytes of the length
in native order, followed by the payload. -/
def frameBytes (data : List UInt8) : List UInt8 :=
  (List.range 8).map (sizeByte data.length) ++ data

end Clogger

/-! ## The queue variant (`main.cpp`) -/

/-- The members of `class Clogger` of `main.cpp` (the mutex, the condition
variable and the unused `fp` and `m_vec` apart). -/
structure QueueClogger where
  fsize : Nat
  m_tasks : List (List UInt8)
  m_running : Bool
  m_thread : Bool
  m_cursor : Nat
  wdata : Mem
  fd : Bool

namespace QueueClogger

/-- The successful path of the constructor of `main.cpp` (lines 42-73) on a
file whose bytes are `file`. -/
def ctor (file : List UInt8) : QueueClogger :=
  let st_size := file.length
  let fsize := if st_size = 0 then 4096 else st_size
  { fsize := fsize
    m_tasks := []
    m_running := true
    m_thread := true
    m_cursor := fsize
    wdata := dataPtr file
    fd := true }

/-- The method `Clogger::log` of `main.cpp`: push the record on the queue. -/
def log (s : QueueClogger) (data : List UInt8) : QueueClogger :=
  { s with m_tasks := s.m_tasks ++ [data] }

/-- The method `Clogger::resizeLog` of `main.cpp`; `none` is the `exit(1)`. -/
def resizeLog (mmap_ok : Nat → Bool) (s : QueueClogger) : Option QueueClogger :=
  let new_size := s.fsize * 2 % SIZE_MOD
  let file : Mem := fun i => if i < s.fsize then s.wdata i else 0
  if mmap_ok new_size then some { s with wdata := file, fsize := new_size } else none

/-- What one iteration of the loop of `workerLoop` of `main.cpp` does. -/
inductive Outcome where
  /-- The `return` of line 119. -/
  | returned : Outcome
  /-- The thread stays blocked in `m_cv.wait` (queue empty, still running). -/
  | waiting : Outcome
  /-- The `exit(1)` of `resizeLog`. -/
  | aborted : Outcome
  /-- The iteration ran to the end of the loop body. -/
  | next : QueueClogger → Outcome

/-- One iteration of the loop of `Clogger::workerLoop` of `main.cpp`
(lines 112-138). -/
def workerBody (mmap_ok : Nat → Bool) (s : QueueClogger) : Outcome :=
  match s.m_tasks with
  | [] => if !s.m_running then Outcome.returned else Outcome.waiting
  | current_data :: rest =>
    let s1 := { s with m_tasks := rest }
    let grown :=
      if (s1.m_cursor + current_data.length) % SIZE_MOD > s1.fsize then resizeLog mmap_ok s1
      else some s1
    match grown with
    | none => Outcome.aborted
    | some g =>
      let wdata1 := memcpy g.wdata g.m_cursor (dataPtr current_data) 0 current_data.length
      let cursor1 := (g.m_cursor + current_data.length) % SIZE_MOD
      if cursor1 < g.fsize then
        Outcome.next { g with wdata := Function.update wdata1 cursor1 10,
                              m_cursor := (cursor1 + 1) % SIZE_MOD }
      else
        Outcome.next { g with wdata := wdata1, m_cursor := cursor1 }

/-- The loop of `workerLoop` of `main.cpp` run on its own, bounded by `fuel`
iterations. -/
def workerLoop (mmap_ok : Nat → Bool) : Nat → QueueClogger → Option QueueClogger
  | 0, _ => none
  | fuel + 1, s =>
    match workerBody mmap_ok s with
    | Outcome.returned => some s
    | Outcome.waiting => workerLoop mmap_ok fuel s
    | Outcome.aborted => none
    | Outcome.next s1 => workerLoop mmap_ok fuel s1

/-- The bytes of the file after `ftruncate(fd, m_cursor)` (line 84). -/
def fileAfterTruncate (s : QueueClogger) : List UInt8 :=
  (List.range s.m_cursor).map (fun i => if i < s.fsize then s.wdata i else 0)

/-- The destructor of `main.cpp` for a logger whose thread was started: clear
the running flag, join the worker, unmap, truncate to `m_cursor`, close. -/
def dtor (mmap_ok : Nat → Bool) (fuel : Nat) (s : QueueClogger) :
    Option (QueueClogger × List UInt8) :=
  (workerLoop mmap_ok fuel { s with m_running := false }).map
    (fun s1 => ({ s1 with m_thread := false, fd := false }, fileAfterTruncate s1))

end QueueClogger

/-! ## Invariants and auxiliary definitions -/

namespace Clogger

/-- The ring bytes that an accepting `log` stores. -/
def logRing (s : Clogger) (data : List UInt8) : Mem :=
  let ring1 := writeLen s.m_ring s.m_head data.length
  let data_start := (s.m_head + SIZEOF_SIZE_T) % SIZE_MOD % RING_SIZE
  if (data_start + data.length) % SIZE_MOD ≤ RING_SIZE then
    memcpy ring1 data_start (dataPtr data) 0 data.length
  else
    memcpy (memcpy ring1 data_start (dataPtr data) 0 (RING_SIZE - data_start))
      0 (dataPtr data) (RING_SIZE - data_start) (data.length - (RING_SIZE - data_start))

/-- The ring holds the frame of the record `r` from offset `t`: the eight
bytes of its length, then its payload, byte-wise modulo `RING_SIZE`. -/
def FrameAt (ring : Mem) (t : Nat) (r : List UInt8) : Prop :=
  (∀ i, i < 8 → ring ((t + i) % RING_SIZE) = sizeByte r.length i) ∧
  (∀ i, i < r.length → ring ((t + 8 + i) % RING_SIZE) = r.getD i 0)

/-- The scratch bytes that `dequeue` leaves, for a decoded length `n`. -/
def dequeueScratch (s : Clogger) (n : Nat) : Mem :=
  let scratch0 : Mem :=
    if s.scratch_size < n then fun i => if i < s.scratch_size then s.scratch i else 0
    else s.scratch
  let data_start := (s.m_tail + SIZEOF_SIZE_T) % SIZE_MOD % RING_SIZE
  if (data_start + n) % SIZE_MOD ≤ RING_SIZE then
    memcpy scratch0 0 s.m_ring data_start n
  else
    memcpy (memcpy scratch0 0 s.m_ring data_start (RING_SIZE - data_start))
      (RING_SIZE - data_start) s.m_ring 0 (n - (RING_SIZE - data_start))

/-- The frames of the records `pend` lie one after the other in the ring,
the first at offset `t`. -/
def Frames (ring : Mem) : Nat → List (List UInt8) → Prop
  | _, [] => True
  | t, r :: rs => FrameAt ring t r ∧ Frames ring ((t + (8 + r.length)) % RING_SIZE) rs

/-- Ring bytes taken by the frames of `pend`. -/
def occupied (pend : List (List UInt8)) : Nat := (pend.map (fun r => 8 + r.length)).sum

/-- The channel invariant: both cursors are ring offsets, the frames of the
pending records `pend` fill the ring from `m_tail` up to `m_head`, and they
take fewer than `RING_SIZE` bytes. -/
structure ChanInv (s : Clogger) (pend : List (List UInt8)) : Prop where
  head_lt : s.m_head < RING_SIZE
  tail_lt : s.m_tail < RING_SIZE
  occ_lt : occupied pend < RING_SIZE
  head_eq : s.m_head = (s.m_tail + occupied pend) % RING_SIZE
  frames : Frames s.m_ring s.m_tail pend

end Clogger

namespace Run

/-- The history matches the channel: the accepted payloads are the dequeued
ones followed by the pending ones, whose frames fill the ring. -/
def Good (r : Run) : Prop :=
  ∃ pend, r.accepted = r.dequeued ++ pend ∧ Clogger.ChanInv r.state pend

/-- The cursor accounts for the bytes stored: it is the size of the file at
open plus the stored bytes, in `size_t` arithmetic. -/
def Acc (P : List UInt8) (r : Run) : Prop :=
  r.state.m_cursor = (P.length + r.stored) % SIZE_MOD

end Run

/-! ## Arithmetic of the constants -/

theorem RING_SIZE_eq : RING_SIZE = 4194304 := by decide

theorem SIZE_MOD_eq : SIZE_MOD = 18446744073709551616 := by
  unfold SIZE_MOD; norm_num

theorem SIZEOF_eq : SIZEOF_SIZE_T = 8 := rfl

theorem range8 : List.range SIZEOF_SIZE_T = [0, 1, 2, 3, 4, 5, 6, 7] := by decide

theorem sizeByte_toNat (n i : Nat) : (sizeByte n i).toNat = n / 256 ^ i % 256 := by
  unfold sizeByte
  exact UInt8.toNat_ofNat_of_lt (Nat.mod_lt _ (by decide))

namespace Clogger

/-- The value of `readLen` written out. -/
theorem readLen_eq (ring : Mem) (t : Nat) (ht : t < RING_SIZE) :
    readLen ring t =
      (ring ((t + 0) % RING_SIZE)).toNat + (ring ((t + 1) % RING_SIZE)).toNat * 256
      + (ring ((t + 2) % RING_SIZE)).toNat * 256 ^ 2 + (ring ((t + 3) % RING_SIZE)).toNat * 256 ^ 3
      + (ring ((t + 4) % RING_SIZE)).toNat * 256 ^ 4 + (ring ((t + 5) % RING_SIZE)).toNat * 256 ^ 5
      + (ring ((t + 6) % RING_SIZE)).toNat * 256 ^ 6 + (ring ((t + 7) % RING_SIZE)).toNat * 256 ^ 7 := by
  have h : ∀ i, i < 8 → (t + i) % SIZE_MOD = t + i := by
    intro i hi
    rw [RING_SIZE_eq] at ht
    rw [SIZE_MOD_eq]
    omega
  unfold readLen
  rw [range8]
  simp only [List.foldl]
  rw [h 0 (by omega), h 1 (by omega), h 2 (by omega), h 3 (by omega), h 4 (by omega),
    h 5 (by omega), h 6 (by omega), h 7 (by omega)]
  norm_num

/-- The value of `writeLen` written out. -/
theorem writeLen_eq (ring : Mem) (h m k : Nat) (hh : h < RING_SIZE) :
    writeLen ring h m k =
      if k = (h + 7) % RING_SIZE then sizeByte m 7
      else if k = (h + 6) % RING_SIZE then sizeByte m 6
      else if k = (h + 5) % RING_SIZE then sizeByte m 5
      else if k = (h + 4) % RING_SIZE then sizeByte m 4
      else if k = (h + 3) % RING_SIZE then sizeByte m 3
      else if k = (h + 2) % RING_SIZE then sizeByte m 2
      else if k = (h + 1) % RING_SIZE then sizeByte m 1
      else if k = (h + 0) % RING_SIZE then sizeByte m 0
      else ring k := by
  have e : ∀ i, i < 8 → (h + i) % SIZE_MOD = h + i := by
    intro i hi
    rw [RING_SIZE_eq] at hh
    rw [SIZE_MOD_eq]
    omega
  unfold writeLen
  rw [range8]
  simp only [List.foldl]
  rw [e 0 (by omega), e 1 (by omega), e 2 (by omega), e 3 (by omega), e 4 (by omega),
    e 5 (by omega), e 6 (by omega), e 7 (by omega)]
  simp only [Function.update_apply]

theorem writeLen_at (ring : Mem) (h m i : Nat) (hh : h < RING_SIZE) (hi : i < 8) :
    writeLen ring h m ((h + i) % RING_SIZE) = sizeByte m i := by
  rw [writeLen_eq ring h m _ hh]
  have t : ∀ j, j < 8 → (((h + i) % RING_SIZE = (h + j) % RING_SIZE) ↔ i = j) := by
    intro j hj
    rw [RING_SIZE_eq] at *
    constructor <;> intro e
    · omega
    · rw [e]
  simp only [t 7 (by omega), t 6 (by omega), t 5 (by omega), t 4 (by omega), t 3 (by omega),
    t 2 (by omega), t 1 (by omega), t 0 (by omega)]
  interval_cases i <;> simp

theorem writeLen_other (ring : Mem) (h m k : Nat) (hh : h < RING_SIZE)
    (hk : ∀ i, i < 8 → k ≠ (h + i) % RING_SIZE) : writeLen ring h m k = ring k := by
  rw [writeLen_eq ring h m _ hh]
  have h0 := hk 0 (by omega)
  have h1 := hk 1 (by omega)
  have h2 := hk 2 (by omega)
  have h3 := hk 3 (by omega)
  have h4 := hk 4 (by omega)
  have h5 := hk 5 (by omega)
  have h6 := hk 6 (by omega)
  have h7 := hk 7 (by omega)
  simp only [h0, h1, h2, h3, h4, h5, h6, h7, if_false]

theorem memcpy_in (dst : Mem) (d : Nat) (src : Mem) (s n i : Nat) (h1 : d ≤ i) (h2 : i < d + n) :
    memcpy dst d src s n i = src (s + (i - d)) := by
  unfold memcpy
  rw [if_pos ⟨h1, h2⟩]

theorem memcpy_out (dst : Mem) (d : Nat) (src : Mem) (s n i : Nat) (h : i < d ∨ d + n ≤ i) :
    memcpy dst d src s n i = dst i := by
  unfold memcpy
  rw [if_neg]
  omega

/-- The drop test in plain arithmetic, for a payload whose framed length is
representable in `size_t`. -/
theorem drops_iff (s : Clogger) (data : List UInt8) (hL : data.length + 9 < SIZE_MOD) :
    drops s data = true ↔ freeSpace s.m_head s.m_tail ≤ 8 + data.length + 1 := by
  rw [SIZE_MOD_eq] at hL
  unfold drops
  simp only [decide_eq_true_eq, SIZEOF_eq, SIZE_MOD_eq]
  omega

theorem log_of_drops (s : Clogger) (data : List UInt8) (h : drops s data = true) :
    log s data = s := by
  unfold drops freeSpace at h
  simp only [decide_eq_true_eq] at h
  unfold log
  simp only
  rw [if_pos h]

theorem log_of_accepts (s : Clogger) (data : List UInt8) (h : drops s data = false) :
    log s data = { s with m_ring := logRing s data,
                          m_head := (s.m_head + (SIZEOF_SIZE_T + data.length) % SIZE_MOD)
                            % SIZE_MOD % RING_SIZE } := by
  unfold drops freeSpace at h
  simp only [decide_eq_false_iff_not] at h
  unfold log
  simp only
  rw [if_neg h]
  rfl

theorem logRing_other (s : Clogger) (data : List UInt8) (k : Nat)
    (hh : s.m_head < RING_SIZE) (hL : data.length + 9 < RING_SIZE)
    (hk : ∀ i, i < 8 + data.length → k ≠ (s.m_head + i) % RING_SIZE) :
    logRing s data k = s.m_ring k := by
  have hw : writeLen s.m_ring s.m_head data.length k = s.m_ring k :=
    writeLen_other _ _ _ _ hh (fun i hi => hk i (by omega))
  unfold logRing
  simp only [SIZEOF_eq]
  rw [RING_SIZE_eq, SIZE_MOD_eq] at *
  by_cases hc : ((s.m_head + 8) % 18446744073709551616 % 4194304 + data.length)
      % 18446744073709551616 ≤ 4194304
  · rw [if_pos hc, memcpy_out, hw]
    by_contra hn
    exact hk (8 + (k - (s.m_head + 8) % 18446744073709551616 % 4194304)) (by omega) (by omega)
  · rw [if_neg hc]
    rw [memcpy_out, memcpy_out, hw]
    · by_contra hn
      exact hk (8 + (k - (s.m_head + 8) % 18446744073709551616 % 4194304)) (by omega) (by omega)
    · by_contra hn
      exact hk (8 + (4194304 - (s.m_head + 8) % 18446744073709551616 % 4194304) + k)
        (by omega) (by omega)

theorem logRing_len (s : Clogger) (data : List UInt8) (i : Nat)
    (hh : s.m_head < RING_SIZE) (hL : data.length + 9 < RING_SIZE) (hi : i < 8) :
    logRing s data ((s.m_head + i) % RING_SIZE) = sizeByte data.length i := by
  have hw := writeLen_at s.m_ring s.m_head data.length i hh hi
  unfold logRing
  simp only [SIZEOF_eq]
  rw [RING_SIZE_eq, SIZE_MOD_eq] at *
  by_cases hc : ((s.m_head + 8) % 18446744073709551616 % 4194304 + data.length)
      % 18446744073709551616 ≤ 4194304
  · rw [if_pos hc, memcpy_out, hw]
    omega
  · rw [if_neg hc, memcpy_out, memcpy_out, hw]
    · omega
    · omega

theorem logRing_payload (s : Clogger) (data : List UInt8) (i : Nat)
    (hh : s.m_head < RING_SIZE) (hL : data.length + 9 < RING_SIZE) (hi : i < data.length) :
    logRing s data ((s.m_head + 8 + i) % RING_SIZE) = data.getD i 0 := by
  unfold logRing
  simp only [SIZEOF_eq]
  rw [RING_SIZE_eq, SIZE_MOD_eq] at *
  by_cases hc : ((s.m_head + 8) % 18446744073709551616 % 4194304 + data.length)
      % 18446744073709551616 ≤ 4194304
  · rw [if_pos hc, memcpy_in _ _ _ _ _ _ (by omega) (by omega)]
    unfold dataPtr
    congr 1
    omega
  · rw [if_neg hc]
    by_cases hw : i < 4194304 - (s.m_head + 8) % 18446744073709551616 % 4194304
    · rw [memcpy_out _ _ _ _ _ _ (by omega), memcpy_in _ _ _ _ _ _ (by omega) (by omega)]
      unfold dataPtr
      congr 1
      omega
    · rw [memcpy_in _ _ _ _ _ _ (by omega) (by omega)]
      unfold dataPtr
      congr 1
      omega

theorem readLen_frame (ring : Mem) (t : Nat) (r : List UInt8) (ht : t < RING_SIZE)
    (hr : r.length < SIZE_MOD) (hf : FrameAt ring t r) : readLen ring t = r.length := by
  rw [readLen_eq ring t ht]
  rw [hf.1 0 (by omega), hf.1 1 (by omega), hf.1 2 (by omega), hf.1 3 (by omega),
    hf.1 4 (by omega), hf.1 5 (by omega), hf.1 6 (by omega), hf.1 7 (by omega)]
  simp only [sizeByte_toNat]
  rw [SIZE_MOD_eq] at hr
  norm_num
  omega

theorem dequeue_eq (s : Clogger) :
    dequeue s = ({ s with scratch := dequeueScratch s (readLen s.m_ring s.m_tail),
                          scratch_size := if s.scratch_size < readLen s.m_ring s.m_tail
                            then readLen s.m_ring s.m_tail else s.scratch_size },
                 readLen s.m_ring s.m_tail) := rfl

/-- The two-`memcpy` read of the payload is the byte-wise modular read. -/
theorem dequeueScratch_at (s : Clogger) (n i : Nat)
    (hn : n + 8 < RING_SIZE) (hi : i < n) :
    dequeueScratch s n i = s.m_ring ((s.m_tail + 8 + i) % RING_SIZE) := by
  unfold dequeueScratch
  simp only [SIZEOF_eq]
  rw [RING_SIZE_eq, SIZE_MOD_eq] at *
  by_cases hc : ((s.m_tail + 8) % 18446744073709551616 % 4194304 + n)
      % 18446744073709551616 ≤ 4194304
  · rw [if_pos hc, memcpy_in _ _ _ _ _ _ (by omega) (by omega)]
    congr 1
    omega
  · rw [if_neg hc]
    by_cases hw : i < 4194304 - (s.m_tail + 8) % 18446744073709551616 % 4194304
    · rw [memcpy_out _ _ _ _ _ _ (by omega), memcpy_in _ _ _ _ _ _ (by omega) (by omega)]
      congr 1
      omega
    · rw [memcpy_in _ _ _ _ _ _ (by omega) (by omega)]
      congr 1
      omega

theorem occupied_cons (r : List UInt8) (rs : List (List UInt8)) :
    occupied (r :: rs) = 8 + r.length + occupied rs := by
  simp [occupied]

theorem occupied_append (a b : List (List UInt8)) :
    occupied (a ++ b) = occupied a + occupied b := by
  simp [occupied]

theorem Frames_congr (ring ring1 : Mem) (pend : List (List UInt8)) :
    ∀ t, (∀ j, j < occupied pend → ring1 ((t + j) % RING_SIZE) = ring ((t + j) % RING_SIZE)) →
      Frames ring t pend → Frames ring1 t pend := by
  induction pend with
  | nil => intro t _ _; trivial
  | cons r rs ih =>
    intro t hj hf
    rw [occupied_cons] at hj
    refine ⟨⟨?_, ?_⟩, ?_⟩
    · intro i hi
      rw [hj i (by omega)]
      exact hf.1.1 i hi
    · intro i hi
      have e := hj (8 + i) (by omega)
      rw [← Nat.add_assoc] at e
      rw [e]
      exact hf.1.2 i hi
    · apply ih _ _ hf.2
      intro j hjlt
      have e := hj (8 + r.length + j) (by omega)
      have a : ((t + (8 + r.length)) % RING_SIZE + j) % RING_SIZE
          = (t + (8 + r.length + j)) % RING_SIZE := by
        rw [RING_SIZE_eq]; omega
      rw [a]
      exact e

theorem Frames_snoc (ring : Mem) (r : List UInt8) (pend : List (List UInt8)) :
    ∀ t, Frames ring t pend → FrameAt ring ((t + occupied pend) % RING_SIZE) r →
      Frames ring t (pend ++ [r]) := by
  induction pend with
  | nil =>
    intro t _ hf
    have e : (t + occupied []) % RING_SIZE = t % RING_SIZE := by simp [occupied]
    rw [e] at hf
    refine ⟨⟨?_, ?_⟩, trivial⟩
    · intro i hi
      have := hf.1 i hi
      rwa [Nat.mod_add_mod] at this
    · intro i hi
      have := hf.2 i hi
      rw [Nat.add_assoc, Nat.mod_add_mod, ← Nat.add_assoc] at this
      exact this
  | cons q qs ih =>
    intro t hfs hf
    refine ⟨hfs.1, ?_⟩
    apply ih _ hfs.2
    have a : ((t + (8 + q.length)) % RING_SIZE + occupied qs) % RING_SIZE
        = (t + occupied (q :: qs)) % RING_SIZE := by
      rw [occupied_cons, RING_SIZE_eq]; omega
    rw [a]
    exact hf

theorem freeSpace_of_inv (s : Clogger) (pend : List (List UInt8)) (h : ChanInv s pend) :
    freeSpace s.m_head s.m_tail = RING_SIZE - occupied pend := by
  obtain ⟨h1, h2, h3, h4, _⟩ := h
  unfold freeSpace
  rw [RING_SIZE_eq] at *
  split_ifs <;> omega

/-- Acceptance, seen through the invariant: the framed record and two more
bytes fit beside the pending frames. -/
theorem accepts_iff_of_inv (s : Clogger) (pend : List (List UInt8)) (data : List UInt8)
    (h : ChanInv s pend) (hL : data.length + 9 < SIZE_MOD) :
    drops s data = false ↔ occupied pend + data.length + 9 < RING_SIZE := by
  have hd := drops_iff s data hL
  rw [freeSpace_of_inv s pend h] at hd
  have ho := h.occ_lt
  rw [RING_SIZE_eq] at *
  cases hb : drops s data
  · have : ¬ (4194304 - occupied pend ≤ 8 + data.length + 1) := by
      intro hc
      have := hd.2 hc
      rw [hb] at this
      exact Bool.noConfusion this
    simp only [true_iff]
    omega
  · have := hd.1 hb
    simp only [Bool.true_eq_false, false_iff]
    omega

theorem log_inv (s : Clogger) (pend : List (List UInt8)) (data : List UInt8)
    (h : ChanInv s pend) (hL : data.length + 9 < SIZE_MOD) :
    ChanInv (log s data) (if drops s data = true then pend else pend ++ [data]) := by
  cases hb : drops s data
  · have hfit := (accepts_iff_of_inv s pend data h hL).1 hb
    rw [log_of_accepts s data hb]
    simp only [Bool.false_eq_true, if_false]
    obtain ⟨h1, h2, h3, h4, h5⟩ := h
    have hocc : occupied (pend ++ [data]) = occupied pend + (8 + data.length) := by
      rw [occupied_append, occupied_cons]; simp [occupied]
    have hL9 : data.length + 9 < RING_SIZE := by omega
    refine ⟨?_, h2, ?_, ?_, ?_⟩
    · exact Nat.mod_lt _ (by rw [RING_SIZE_eq]; omega)
    · rw [hocc]; omega
    · simp only [SIZEOF_eq]
      rw [hocc]
      rw [RING_SIZE_eq, SIZE_MOD_eq] at *
      omega
    · simp only
      apply Frames_snoc
      · apply Frames_congr s.m_ring _ _ _ _ h5
        intro j hj
        apply logRing_other s data _ h1 hL9
        intro i hi
        rw [RING_SIZE_eq] at *
        omega
      · rw [← h4]
        refine ⟨?_, ?_⟩
        · intro i hi
          exact logRing_len s data i h1 hL9 hi
        · intro i hi
          exact logRing_payload s data i h1 hL9 hi
  · rw [log_of_drops s data hb]
    simp only [if_true]
    exact h

theorem append_chan (s : Clogger) (n : Nat) :
    (append s n).m_head = s.m_head ∧ (append s n).m_tail = s.m_tail ∧
      (append s n).m_ring = s.m_ring ∧ (append s n).m_running = s.m_running ∧
      (append s n).scratch = s.scratch ∧ (append s n).fsize = s.fsize := by
  unfold append
  simp only
  split_ifs <;> simp

theorem resizeLog_chan (mmap_ok : Nat → Bool) (s g : Clogger) (h : resizeLog mmap_ok s = some g) :
    g.m_head = s.m_head ∧ g.m_tail = s.m_tail ∧ g.m_ring = s.m_ring ∧
      g.m_running = s.m_running ∧ g.scratch = s.scratch ∧ g.m_cursor = s.m_cursor := by
  unfold resizeLog at h
  simp only at h
  split_ifs at h
  simp only [Option.some.injEq] at h
  subst h
  simp

theorem ensure_chan (mmap_ok : Nat → Bool) (s g : Clogger) (n : Nat)
    (h : ensure mmap_ok s n = some g) :
    g.m_head = s.m_head ∧ g.m_tail = s.m_tail ∧ g.m_ring = s.m_ring ∧
      g.m_running = s.m_running ∧ g.scratch = s.scratch ∧ g.m_cursor = s.m_cursor := by
  unfold ensure at h
  split_ifs at h
  · exact resizeLog_chan mmap_ok s g h
  · simp only [Option.some.injEq] at h
    subst h
    exact ⟨rfl, rfl, rfl, rfl, rfl, rfl⟩

/-- The loop iteration on a non-empty channel. -/
theorem workerBody_of_ne (mmap_ok : Nat → Bool) (s : Clogger) (h : s.m_head ≠ s.m_tail) :
    workerBody mmap_ok s =
      match ensure mmap_ok (dequeue s).1 (dequeue s).2 with
      | none => Outcome.aborted
      | some g =>
        Outcome.next { append g (dequeue s).2 with m_tail :=
          (s.m_tail + SIZEOF_SIZE_T + (dequeue s).2) % SIZE_MOD % RING_SIZE } := by
  unfold workerBody
  simp only
  rw [if_neg h]

theorem workerBody_of_eq (mmap_ok : Nat → Bool) (s : Clogger) (h : s.m_head = s.m_tail) :
    workerBody mmap_ok s = if s.m_running = false then Outcome.returned else Outcome.idle := by
  unfold workerBody
  simp only
  rw [if_pos h]
  cases s.m_running <;> rfl

theorem inv_nil_iff (s : Clogger) (pend : List (List UInt8)) (h : ChanInv s pend) :
    s.m_head = s.m_tail ↔ pend = [] := by
  obtain ⟨h1, h2, h3, h4, _⟩ := h
  cases pend with
  | nil => simp [occupied] at h4; simp [h4]; exact (Nat.mod_eq_of_lt h2)
  | cons r rs =>
    rw [occupied_cons] at h3 h4
    simp only [reduceCtorEq, iff_false]
    rw [RING_SIZE_eq] at *
    omega

theorem payload_of_inv (s : Clogger) (r : List UInt8) (rs : List (List UInt8))
    (h : ChanInv s (r :: rs)) : (dequeue s).2 = r.length ∧ payload s = r := by
  obtain ⟨h1, h2, h3, h4, h5⟩ := h
  rw [occupied_cons] at h3
  have hlen : readLen s.m_ring s.m_tail = r.length :=
    readLen_frame _ _ _ h2 (by rw [RING_SIZE_eq] at h3; rw [SIZE_MOD_eq]; omega) h5.1
  refine ⟨by rw [dequeue_eq]; exact hlen, ?_⟩
  unfold payload
  rw [dequeue_eq]
  simp only [hlen]
  apply List.ext_getElem
  · simp
  · intro i hi1 hi2
    simp only [List.getElem_map, List.getElem_range]
    rw [dequeueScratch_at s r.length i (by omega) hi2, h5.1.2 i hi2]
    simp [List.getD_eq_getElem?_getD, List.getElem?_eq_getElem hi2]

theorem dequeue_chan (s : Clogger) :
    (dequeue s).1.m_head = s.m_head ∧ (dequeue s).1.m_tail = s.m_tail ∧
      (dequeue s).1.m_ring = s.m_ring ∧ (dequeue s).1.m_running = s.m_running ∧
      (dequeue s).1.m_cursor = s.m_cursor ∧ (dequeue s).1.fsize = s.fsize ∧
      (dequeue s).1.wdata = s.wdata := by
  rw [dequeue_eq]
  exact ⟨rfl, rfl, rfl, rfl, rfl, rfl, rfl⟩

/-- What a loop iteration does to the channel when a record is pending. -/
theorem consume_inv (mmap_ok : Nat → Bool) (s g : Clogger) (r : List UInt8)
    (rs : List (List UInt8)) (h : ChanInv s (r :: rs))
    (hg : ensure mmap_ok (dequeue s).1 (dequeue s).2 = some g) :
    workerBody mmap_ok s = Outcome.next { append g r.length with
        m_tail := (s.m_tail + SIZEOF_SIZE_T + r.length) % SIZE_MOD % RING_SIZE } ∧
      ChanInv { append g r.length with
        m_tail := (s.m_tail + SIZEOF_SIZE_T + r.length) % SIZE_MOD % RING_SIZE } rs := by
  have hne : s.m_head ≠ s.m_tail := by
    intro e
    have := (inv_nil_iff s _ h).1 e
    exact List.cons_ne_nil _ _ this
  obtain ⟨hlen, _⟩ := payload_of_inv s r rs h
  refine ⟨?_, ?_⟩
  · rw [workerBody_of_ne mmap_ok s hne, hg, hlen]
  · obtain ⟨d1, d2, d3, _⟩ := dequeue_chan s
    obtain ⟨g1, g2, g3, _⟩ := ensure_chan mmap_ok _ g _ hg
    obtain ⟨a1, a2, a3, _⟩ := append_chan g r.length
    obtain ⟨h1, h2, h3, h4, h5⟩ := h
    rw [occupied_cons] at h3 h4
    refine ⟨?_, ?_, ?_, ?_, ?_⟩
    · simp only [a1, g1, d1]; exact h1
    · exact Nat.mod_lt _ (by rw [RING_SIZE_eq]; omega)
    · omega
    · simp only [a1, g1, d1, SIZEOF_eq]
      rw [RING_SIZE_eq, SIZE_MOD_eq] at *
      omega
    · simp only [a3, g3, d3, SIZEOF_eq]
      have e : (s.m_tail + 8 + r.length) % SIZE_MOD % RING_SIZE
          = (s.m_tail + (8 + r.length)) % RING_SIZE := by
        rw [RING_SIZE_eq, SIZE_MOD_eq] at *
        omega
      rw [e]
      exact h5.2

end Clogger

namespace Run

theorem good_start (s : Clogger) (hh : s.m_head = 0) (ht : s.m_tail = 0) : Good (start s) := by
  refine ⟨[], rfl, ?_⟩
  refine ⟨?_, ?_, ?_, ?_, trivial⟩
  · show s.m_head < RING_SIZE
    rw [hh, RING_SIZE_eq]; omega
  · show s.m_tail < RING_SIZE
    rw [ht, RING_SIZE_eq]; omega
  · rw [RING_SIZE_eq]; simp [Clogger.occupied]
  · show s.m_head = (s.m_tail + Clogger.occupied []) % RING_SIZE
    rw [hh, ht]; simp [Clogger.occupied]

theorem good_afterLog (r : Run) (data : List UInt8) (h : Good r)
    (hL : data.length + 9 < SIZE_MOD) : Good (r.afterLog data) := by
  obtain ⟨pend, hacc, hinv⟩ := h
  have := Clogger.log_inv r.state pend data hinv hL
  unfold afterLog
  cases hb : r.state.drops data
  · rw [hb] at this
    refine ⟨pend ++ [data], ?_, ?_⟩
    · simp [hacc]
    · simpa using this
  · rw [hb] at this
    refine ⟨pend, ?_, ?_⟩
    · simp [hacc]
    · simpa using this

theorem good_afterConsume (mmap_ok : Nat → Bool) (r : Run) (s1 : Clogger) (h : Good r)
    (hw : r.state.workerBody mmap_ok = Clogger.Outcome.next s1) :
    Good (r.afterConsume mmap_ok s1) := by
  obtain ⟨pend, hacc, hinv⟩ := h
  cases pend with
  | nil =>
    have e := (Clogger.inv_nil_iff r.state [] hinv).2 rfl
    rw [Clogger.workerBody_of_eq mmap_ok r.state e] at hw
    split_ifs at hw
  | cons q qs =>
    have hne : r.state.m_head ≠ r.state.m_tail := by
      intro e
      exact List.cons_ne_nil _ _ ((Clogger.inv_nil_iff r.state _ hinv).1 e)
    cases hg : Clogger.ensure mmap_ok r.state.dequeue.1 r.state.dequeue.2 with
    | none =>
      rw [Clogger.workerBody_of_ne mmap_ok r.state hne, hg] at hw
      exact Clogger.Outcome.noConfusion hw
    | some g =>
      obtain ⟨hb, hi⟩ := Clogger.consume_inv mmap_ok r.state g q qs hinv hg
      rw [hb] at hw
      injection hw with hw
      subst hw
      refine ⟨qs, ?_, hi⟩
      show r.accepted = (r.dequeued ++ [r.state.payload]) ++ qs
      rw [(Clogger.payload_of_inv r.state q qs hinv).2, hacc]
      simp

theorem good_step (mmap_ok : Nat → Bool) (r r1 : Run) (op : Op) (h : Good r)
    (hL : ∀ d, d ∈ logged [op] → d.length + 9 < SIZE_MOD)
    (hs : r.step mmap_ok op = some r1) : Good r1 := by
  cases op with
  | log data =>
    simp only [step, Option.some.injEq] at hs
    subst hs
    exact good_afterLog r data h (hL data (by simp [logged]))
  | consume =>
    unfold step at hs
    cases hw : r.state.workerBody mmap_ok with
    | returned => rw [hw] at hs; simp only [Option.some.injEq] at hs; subst hs; exact h
    | idle => rw [hw] at hs; simp only [Option.some.injEq] at hs; subst hs; exact h
    | aborted => rw [hw] at hs; exact Option.noConfusion hs
    | next s1 =>
      rw [hw] at hs
      simp only [Option.some.injEq] at hs
      subst hs
      exact good_afterConsume mmap_ok r s1 h hw

theorem logged_cons_subset (op : Op) (ops : List Op) (d : List UInt8) :
    d ∈ logged (op :: ops) ↔ d ∈ logged [op] ∨ d ∈ logged ops := by
  cases op <;> simp [logged]

theorem good_run (mmap_ok : Nat → Bool) (ops : List Op) :
    ∀ r r1 : Run, Good r → (∀ d, d ∈ logged ops → d.length + 9 < SIZE_MOD) →
      run mmap_ok r ops = some r1 → Good r1 := by
  induction ops with
  | nil =>
    intro r r1 h _ hr
    simp only [run, Option.some.injEq] at hr
    subst hr
    exact h
  | cons op ops ih =>
    intro r r1 h hL hr
    unfold run at hr
    cases hs : r.step mmap_ok op with
    | none => rw [hs] at hr; exact Option.noConfusion hr
    | some r2 =>
      rw [hs] at hr
      simp only [Option.some_bind] at hr
      have h2 := good_step mmap_ok r r2 op h
        (fun d hd => hL d ((logged_cons_subset op ops d).2 (Or.inl hd))) hs
      exact ih r2 r1 h2 (fun d hd => hL d ((logged_cons_subset op ops d).2 (Or.inr hd))) hr

theorem ensure_isSome (mmap_ok : Nat → Bool) (hm : ∀ n, mmap_ok n = true) (s : Clogger)
    (n : Nat) : ∃ g, Clogger.ensure mmap_ok s n = some g := by
  unfold Clogger.ensure Clogger.resizeLog
  simp only [hm, if_true]
  split_ifs
  · exact ⟨_, rfl⟩
  · exact ⟨_, rfl⟩

theorem workerBody_ne_aborted (mmap_ok : Nat → Bool) (hm : ∀ n, mmap_ok n = true)
    (s : Clogger) : s.workerBody mmap_ok ≠ Clogger.Outcome.aborted := by
  by_cases e : s.m_head = s.m_tail
  · rw [Clogger.workerBody_of_eq mmap_ok s e]
    split_ifs <;> exact fun h => Clogger.Outcome.noConfusion h
  · rw [Clogger.workerBody_of_ne mmap_ok s e]
    obtain ⟨g, hg⟩ := ensure_isSome mmap_ok hm s.dequeue.1 s.dequeue.2
    rw [hg]
    exact fun h => Clogger.Outcome.noConfusion h

theorem step_isSome (mmap_ok : Nat → Bool) (hm : ∀ n, mmap_ok n = true) (r : Run) (op : Op) :
    ∃ r1, r.step mmap_ok op = some r1 := by
  cases op with
  | log data => exact ⟨_, rfl⟩
  | consume =>
    unfold step
    cases hw : r.state.workerBody mmap_ok with
    | returned => exact ⟨_, rfl⟩
    | idle => exact ⟨_, rfl⟩
    | aborted => exact absurd hw (workerBody_ne_aborted mmap_ok hm r.state)
    | next s1 => exact ⟨_, rfl⟩

theorem run_isSome (mmap_ok : Nat → Bool) (hm : ∀ n, mmap_ok n = true) (ops : List Op) :
    ∀ r : Run, ∃ r1, run mmap_ok r ops = some r1 := by
  induction ops with
  | nil => intro r; exact ⟨r, rfl⟩
  | cons op ops ih =>
    intro r
    obtain ⟨r2, h2⟩ := step_isSome mmap_ok hm r op
    obtain ⟨r1, h1⟩ := ih r2
    refine ⟨r1, ?_⟩
    unfold run
    rw [h2]
    exact h1

theorem step_accepted (mmap_ok : Nat → Bool) (r r1 : Run) (op : Op)
    (hs : r.step mmap_ok op = some r1) :
    ∃ l, l.Sublist (logged [op]) ∧ r1.accepted = r.accepted ++ l := by
  cases op with
  | log data =>
    simp only [step, Option.some.injEq] at hs
    subst hs
    unfold afterLog
    cases hb : r.state.drops data
    · exact ⟨[data], by simp [logged], by simp⟩
    · exact ⟨[], by simp, by simp⟩
  | consume =>
    refine ⟨[], by simp, ?_⟩
    unfold step at hs
    cases hw : r.state.workerBody mmap_ok with
    | returned => rw [hw] at hs; simp only [Option.some.injEq] at hs; subst hs; simp
    | idle => rw [hw] at hs; simp only [Option.some.injEq] at hs; subst hs; simp
    | aborted => rw [hw] at hs; exact Option.noConfusion hs
    | next s1 =>
      rw [hw] at hs
      simp only [Option.some.injEq] at hs
      subst hs
      simp [afterConsume]

theorem logged_cons (op : Op) (ops : List Op) : logged (op :: ops) = logged [op] ++ logged ops := by
  cases op <;> simp [logged]

theorem run_accepted (mmap_ok : Nat → Bool) (ops : List Op) :
    ∀ r r1 : Run, run mmap_ok r ops = some r1 →
      ∃ l, l.Sublist (logged ops) ∧ r1.accepted = r.accepted ++ l := by
  induction ops with
  | nil =>
    intro r r1 hr
    simp only [run, Option.some.injEq] at hr
    subst hr
    exact ⟨[], by simp [logged], by simp⟩
  | cons op ops ih =>
    intro r r1 hr
    unfold run at hr
    cases hs : r.step mmap_ok op with
    | none => rw [hs] at hr; exact Option.noConfusion hr
    | some r2 =>
      rw [hs] at hr
      simp only [Option.some_bind] at hr
      obtain ⟨l1, hl1, e1⟩ := step_accepted mmap_ok r r2 op hs
      obtain ⟨l2, hl2, e2⟩ := ih r2 r1 hr
      refine ⟨l1 ++ l2, ?_, ?_⟩
      · rw [logged_cons]
        exact List.Sublist.append hl1 hl2
      · rw [e2, e1, List.append_assoc]

theorem workerBody_returned_iff (mmap_ok : Nat → Bool) (s : Clogger) :
    s.workerBody mmap_ok = Clogger.Outcome.returned ↔
      (s.m_head = s.m_tail ∧ s.m_running = false) := by
  by_cases e : s.m_head = s.m_tail
  · rw [Clogger.workerBody_of_eq mmap_ok s e]
    cases hr : s.m_running <;> simp [e]
  · rw [Clogger.workerBody_of_ne mmap_ok s e]
    cases Clogger.ensure mmap_ok s.dequeue.1 s.dequeue.2 <;> simp [e]

theorem consume_running (g : Clogger) (s : Clogger) (mmap_ok : Nat → Bool) (n t : Nat)
    (hg : Clogger.ensure mmap_ok s.dequeue.1 s.dequeue.2 = some g) :
    ({ g.append n with m_tail := t } : Clogger).m_running = s.m_running := by
  obtain ⟨_, _, _, d4, _⟩ := Clogger.dequeue_chan s
  obtain ⟨_, _, _, g4, _⟩ := Clogger.ensure_chan mmap_ok _ g _ hg
  obtain ⟨_, _, _, a4, _⟩ := Clogger.append_chan g n
  show (g.append n).m_running = s.m_running
  rw [a4, g4, d4]

/-- With the running flag cleared and no further `log`, the loop appends the
pending records one by one and returns. -/
theorem drain (mmap_ok : Nat → Bool) (hm : ∀ n, mmap_ok n = true) (pend : List (List UInt8)) :
    ∀ (r : Run) (extra : Nat), Clogger.ChanInv r.state pend → r.state.m_running = false →
      ∃ r1, workerLoop mmap_ok (pend.length + 1 + extra) r = some r1 ∧
        r1.accepted = r.accepted ∧ r1.dequeued = r.dequeued ++ pend ∧
        Clogger.ChanInv r1.state [] := by
  induction pend with
  | nil =>
    intro r extra hinv hrun
    have e := (Clogger.inv_nil_iff r.state [] hinv).2 rfl
    have hw := (workerBody_returned_iff mmap_ok r.state).2 ⟨e, hrun⟩
    refine ⟨r, ?_, rfl, by simp, hinv⟩
    have e : ([] : List (List UInt8)).length + 1 + extra = extra + 1 := by
      simp only [List.length_nil]; omega
    rw [e]
    unfold workerLoop
    rw [hw]
  | cons q qs ih =>
    intro r extra hinv hrun
    obtain ⟨g, hg⟩ := ensure_isSome mmap_ok hm r.state.dequeue.1 r.state.dequeue.2
    obtain ⟨hb, hi⟩ := Clogger.consume_inv mmap_ok r.state g q qs hinv hg
    have hrun1 := consume_running g r.state mmap_ok q.length
      ((r.state.m_tail + SIZEOF_SIZE_T + q.length) % SIZE_MOD % RING_SIZE) hg
    obtain ⟨r1, h1, h2, h3, h4⟩ := ih (r.afterConsume mmap_ok _) extra hi (hrun1.trans hrun)
    refine ⟨r1, ?_, h2, ?_, h4⟩
    · have e : (q :: qs).length + 1 + extra = qs.length + 1 + extra + 1 := by
        simp only [List.length_cons]; omega
      rw [e]
      unfold workerLoop
      rw [hb]
      exact h1
    · rw [h3]
      show (r.dequeued ++ [r.state.payload]) ++ qs = r.dequeued ++ q :: qs
      rw [(Clogger.payload_of_inv r.state q qs hinv).2]
      simp

theorem log_cursor (s : Clogger) (data : List UInt8) :
    (s.log data).m_cursor = s.m_cursor ∧ (s.log data).fsize = s.fsize ∧
      (s.log data).wdata = s.wdata ∧ (s.log data).m_running = s.m_running := by
  cases hb : s.drops data
  · rw [Clogger.log_of_accepts s data hb]
    exact ⟨rfl, rfl, rfl, rfl⟩
  · rw [Clogger.log_of_drops s data hb]
    exact ⟨rfl, rfl, rfl, rfl⟩

theorem append_cursor (g : Clogger) (n : Nat) :
    (g.append n).m_cursor = (g.m_cursor + g.storedBy n) % SIZE_MOD := by
  unfold Clogger.append Clogger.storedBy
  simp only
  rw [SIZE_MOD_eq]
  split_ifs <;> simp only <;> omega

/-- What an iteration that reaches line 177 is made of. -/
theorem next_shape (mmap_ok : Nat → Bool) (s s1 : Clogger)
    (hw : s.workerBody mmap_ok = Clogger.Outcome.next s1) :
    s.m_head ≠ s.m_tail ∧ ∃ g, Clogger.ensure mmap_ok s.dequeue.1 s.dequeue.2 = some g ∧
      s1 = { g.append s.dequeue.2 with
        m_tail := (s.m_tail + SIZEOF_SIZE_T + s.dequeue.2) % SIZE_MOD % RING_SIZE } := by
  by_cases e : s.m_head = s.m_tail
  · rw [Clogger.workerBody_of_eq mmap_ok s e] at hw
    split_ifs at hw
  · refine ⟨e, ?_⟩
    rw [Clogger.workerBody_of_ne mmap_ok s e] at hw
    cases hg : Clogger.ensure mmap_ok s.dequeue.1 s.dequeue.2 with
    | none => rw [hg] at hw; exact Clogger.Outcome.noConfusion hw
    | some g =>
      rw [hg] at hw
      injection hw with hw
      exact ⟨g, rfl, hw.symm⟩

theorem acc_afterConsume (mmap_ok : Nat → Bool) (P : List UInt8) (r : Run) (s1 : Clogger)
    (h : Acc P r) (hw : r.state.workerBody mmap_ok = Clogger.Outcome.next s1) :
    Acc P (r.afterConsume mmap_ok s1) := by
  obtain ⟨_, g, hg, rfl⟩ := next_shape mmap_ok r.state s1 hw
  obtain ⟨_, _, _, _, d5, _⟩ := Clogger.dequeue_chan r.state
  obtain ⟨_, _, _, _, _, g6⟩ := Clogger.ensure_chan mmap_ok _ g _ hg
  unfold Acc at *
  unfold afterConsume
  simp only [hg]
  rw [append_cursor, g6, d5, h, SIZE_MOD_eq]
  omega

theorem acc_step (mmap_ok : Nat → Bool) (P : List UInt8) (r r1 : Run) (op : Op) (h : Acc P r)
    (hs : r.step mmap_ok op = some r1) : Acc P r1 := by
  cases op with
  | log data =>
    simp only [step, Option.some.injEq] at hs
    subst hs
    unfold Acc afterLog
    simp only [(log_cursor r.state data).1]
    exact h
  | consume =>
    unfold step at hs
    cases hw : r.state.workerBody mmap_ok with
    | returned => rw [hw] at hs; simp only [Option.some.injEq] at hs; subst hs; exact h
    | idle => rw [hw] at hs; simp only [Option.some.injEq] at hs; subst hs; exact h
    | aborted => rw [hw] at hs; exact Option.noConfusion hs
    | next s1 =>
      rw [hw] at hs
      simp only [Option.some.injEq] at hs
      subst hs
      exact acc_afterConsume mmap_ok P r s1 h hw

theorem acc_run (mmap_ok : Nat → Bool) (P : List UInt8) (ops : List Op) :
    ∀ r r1 : Run, Acc P r → run mmap_ok r ops = some r1 → Acc P r1 := by
  induction ops with
  | nil =>
    intro r r1 h hr
    simp only [run, Option.some.injEq] at hr
    subst hr
    exact h
  | cons op ops ih =>
    intro r r1 h hr
    unfold run at hr
    cases hs : r.step mmap_ok op with
    | none => rw [hs] at hr; exact Option.noConfusion hr
    | some r2 =>
      rw [hs] at hr
      simp only [Option.some_bind] at hr
      exact ih r2 r1 (acc_step mmap_ok P r r2 op h hs) hr

theorem acc_workerLoop (mmap_ok : Nat → Bool) (P : List UInt8) (fuel : Nat) :
    ∀ r r1 : Run, Acc P r → workerLoop mmap_ok fuel r = some r1 → Acc P r1 := by
  induction fuel with
  | zero => intro r r1 _ h; exact Option.noConfusion h
  | succ n ih =>
    intro r r1 ha h
    unfold workerLoop at h
    cases hw : r.state.workerBody mmap_ok with
    | returned =>
      rw [hw] at h
      simp only [Option.some.injEq] at h
      subst h
      exact ha
    | idle => rw [hw] at h; exact ih _ _ ha h
    | aborted => rw [hw] at h; exact Option.noConfusion h
    | next s1 => rw [hw] at h; exact ih _ _ (acc_afterConsume mmap_ok P r s1 ha hw) h

theorem acc_start (P : List UInt8) (hP : P.length < SIZE_MOD) : Acc P (start (Clogger.ctor P)) := by
  unfold Acc start Clogger.ctor
  simp only [Nat.add_zero]
  exact (Nat.mod_eq_of_lt hP).symm

theorem fileAfterTruncate_length (s : Clogger) : s.fileAfterTruncate.length = s.m_cursor := by
  simp [Clogger.fileAfterTruncate]

theorem append_fit (g : Clogger) (n : Nat) (h : g.m_cursor + n + 1 ≤ g.fsize)
    (hM : g.fsize < SIZE_MOD) :
    (g.append n).m_cursor = g.m_cursor + n + 1 ∧
      (g.append n).wdata
        = Function.update (memcpy g.wdata g.m_cursor g.scratch 0 n) (g.m_cursor + n) 10 := by
  have e : (g.m_cursor + n) % SIZE_MOD = g.m_cursor + n := Nat.mod_eq_of_lt (by omega)
  have e1 : (g.m_cursor + n + 1) % SIZE_MOD = g.m_cursor + n + 1 := Nat.mod_eq_of_lt (by omega)
  unfold Clogger.append
  simp only
  rw [e, if_pos (by omega)]
  exact ⟨e1, rfl⟩

theorem ensure_fit (mmap_ok : Nat → Bool) (s : Clogger) (n : Nat)
    (h : s.m_cursor + n + 1 ≤ s.fsize) (hM : s.fsize < SIZE_MOD) :
    Clogger.ensure mmap_ok s n = some s := by
  have e1 : (s.m_cursor + n + 1) % SIZE_MOD = s.m_cursor + n + 1 := Nat.mod_eq_of_lt (by omega)
  unfold Clogger.ensure
  rw [e1, if_neg (by omega)]

theorem chanInv_start (s : Clogger) (hh : s.m_head = 0) (ht : s.m_tail = 0) :
    Clogger.ChanInv s [] := by
  obtain ⟨p, hp1, hp2⟩ := good_start s hh ht
  have : p = [] := by simpa [start] using hp1.symm
  rw [this] at hp2
  exact hp2

/-- The first consumer iteration after one `log` on an empty ring. -/
theorem first_step (mmap_ok : Nat → Bool) (s0 : Clogger) (data : List UInt8)
    (hh : s0.m_head = 0) (ht : s0.m_tail = 0) (hL : data.length + 9 < RING_SIZE) :
    (s0.log data).dequeue.2 = data.length ∧
      (s0.log data).dequeue.1.m_cursor = s0.m_cursor ∧
      (s0.log data).dequeue.1.fsize = s0.fsize ∧
      ∀ g, Clogger.ensure mmap_ok (s0.log data).dequeue.1 data.length = some g →
        (s0.log data).workerBody mmap_ok = Clogger.Outcome.next
          { g.append data.length with
            m_tail := ((s0.log data).m_tail + SIZEOF_SIZE_T + data.length)
              % SIZE_MOD % RING_SIZE } := by
  have hrep : data.length + 9 < SIZE_MOD := by
    rw [RING_SIZE_eq] at hL; rw [SIZE_MOD_eq]; omega
  have h0 := chanInv_start s0 hh ht
  have e0 : Clogger.occupied [] = 0 := rfl
  have hnd : s0.drops data = false :=
    (Clogger.accepts_iff_of_inv s0 [] data h0 hrep).2 (by rw [e0]; omega)
  have hinv := Clogger.log_inv s0 [] data h0 hrep
  rw [hnd] at hinv
  simp only [Bool.false_eq_true, if_false, List.nil_append] at hinv
  obtain ⟨hlen, _⟩ := Clogger.payload_of_inv _ data [] hinv
  obtain ⟨_, _, _, _, d5, d6, _⟩ := Clogger.dequeue_chan (s0.log data)
  obtain ⟨l1, l2, _, _⟩ := log_cursor s0 data
  refine ⟨hlen, by rw [d5, l1], by rw [d6, l2], ?_⟩
  intro g hg
  rw [← hlen] at hg
  exact (Clogger.consume_inv mmap_ok _ g data [] hinv hg).1

/-- One 8193-byte record on a fresh file: a single doubling, then a copy that
ends past the mapping. -/
theorem overrun_8193 (data : List UInt8) (hlen : data.length = 8193) :
    ((Clogger.ctor []).drops data = false) ∧
    ∃ g s1,
      Clogger.ensure (fun _ : Nat => true) ((Clogger.ctor []).log data).dequeue.1 8193 = some g ∧
        ((Clogger.ctor []).log data).workerBody (fun _ : Nat => true)
          = Clogger.Outcome.next s1 ∧
        g.fsize = 8192 ∧ g.m_cursor = 0 ∧ g.fsize < g.m_cursor + 8193 ∧
        s1.fsize = 8192 ∧ s1.m_cursor = 8193 ∧ g.storedBy 8193 = 8193 := by
  have hrep : data.length + 9 < SIZE_MOD := by
    rw [hlen, SIZE_MOD_eq]; decide
  have hR : data.length + 9 < RING_SIZE := by
    rw [hlen, RING_SIZE_eq]; decide
  have e0 : Clogger.occupied [] = 0 := rfl
  have hnd : (Clogger.ctor []).drops data = false :=
    (Clogger.accepts_iff_of_inv _ [] _ (chanInv_start (Clogger.ctor []) rfl rfl) hrep).2
      (by rw [e0, hlen, RING_SIZE_eq]; decide)
  obtain ⟨f1, f2, f3, f4⟩ := first_step (fun _ : Nat => true) (Clogger.ctor []) data rfl rfl hR
  rw [hlen] at f4
  have hc : ((Clogger.ctor []).log data).dequeue.1.m_cursor = 0 := f2
  have hf : ((Clogger.ctor []).log data).dequeue.1.fsize = 4096 := f3
  obtain ⟨g, hg, hgf, hgc⟩ : ∃ g, Clogger.ensure (fun _ : Nat => true)
      ((Clogger.ctor []).log data).dequeue.1 8193 = some g ∧ g.fsize = 8192 ∧ g.m_cursor = 0 := by
    refine ⟨{ ((Clogger.ctor []).log data).dequeue.1 with
        wdata := fun i =>
          if i < ((Clogger.ctor []).log data).dequeue.1.fsize
          then ((Clogger.ctor []).log data).dequeue.1.wdata i else 0
        fsize := ((Clogger.ctor []).log data).dequeue.1.fsize * 2 % SIZE_MOD }, ?_, ?_, hc⟩
    · unfold Clogger.ensure Clogger.resizeLog
      simp only [hc, hf, SIZE_MOD_eq]
      rfl
    · show ((Clogger.ctor []).log data).dequeue.1.fsize * 2 % SIZE_MOD = 8192
      rw [hf, SIZE_MOD_eq]
  have hst : g.storedBy 8193 = 8193 := by
    unfold Clogger.storedBy
    rw [hgc, hgf, SIZE_MOD_eq]
    rfl
  have hcur : (g.append 8193).m_cursor = 8193 := by
    rw [append_cursor, hst, hgc, SIZE_MOD_eq]
  have hfs : (g.append 8193).fsize = 8192 := by
    rw [(Clogger.append_chan g 8193).2.2.2.2.2, hgf]
  exact ⟨hnd, g, _, hg, f4 g hg, hgf, hgc, by rw [hgf, hgc]; decide, hfs, hcur, hst⟩

end Run

/-! ## Claims -/

/-- C1. Transfer channel FIFO.  Starting from the empty ring
(`m_head = m_tail = 0`), after any sequence of `log` calls interleaved in any
way with consumer iterations: the payloads that `log` accepted are a
subsequence of the submitted ones (same order, the dropped ones absent); the
payloads the consumer has dequeued are a prefix of the accepted ones; and the
two sequences are equal once `m_head = m_tail`.  An execution in which every
`mmap` succeeds never stops early. -/
theorem fifo_channel (mmap_ok : Nat → Bool) (s0 : Clogger) (ops : List Op)
    (hh : s0.m_head = 0) (ht : s0.m_tail = 0)
    (hrep : ∀ d, d ∈ Run.logged ops → d.length + 9 < SIZE_MOD) :
    (∀ r, Run.run mmap_ok (Run.start s0) ops = some r →
        r.accepted.Sublist (Run.logged ops) ∧ r.dequeued <+: r.accepted ∧
          (r.state.m_head = r.state.m_tail → r.dequeued = r.accepted)) ∧
      ((∀ n, mmap_ok n = true) → ∃ r, Run.run mmap_ok (Run.start s0) ops = some r) := by
  refine ⟨?_, fun hm => Run.run_isSome mmap_ok hm ops _⟩
  intro r hr
  obtain ⟨pend, hacc, hinv⟩ := Run.good_run mmap_ok ops _ r (Run.good_start s0 hh ht) hrep hr
  obtain ⟨l, hl, e⟩ := Run.run_accepted mmap_ok ops _ r hr
  refine ⟨?_, ?_, ?_⟩
  · have : r.accepted = l := by simpa [Run.start] using e
    rw [this]
    exact hl
  · exact ⟨pend, hacc.symm⟩
  · intro hhe
    have := (Clogger.inv_nil_iff r.state pend hinv).1 hhe
    rw [hacc, this, List.append_nil]

theorem fifo_channel_witness :
    (Clogger.ctor []).m_head = 0 ∧ (Clogger.ctor []).m_tail = 0 ∧
    (∀ d, d ∈ Run.logged [Op.log [97], Op.consume, Op.log [98, 98]] →
      d.length + 9 < SIZE_MOD) ∧
    ((∀ r, Run.run (fun _ : Nat => true) (Run.start (Clogger.ctor []))
          [Op.log [97], Op.consume, Op.log [98, 98]] = some r →
        r.accepted.Sublist (Run.logged [Op.log [97], Op.consume, Op.log [98, 98]]) ∧
          r.dequeued <+: r.accepted ∧
          (r.state.m_head = r.state.m_tail → r.dequeued = r.accepted)) ∧
      ((∀ n, (fun _ : Nat => true) n = true) → ∃ r, Run.run (fun _ : Nat => true)
          (Run.start (Clogger.ctor [])) [Op.log [97], Op.consume, Op.log [98, 98]] = some r)) :=
  have hrep : ∀ d, d ∈ Run.logged [Op.log [97], Op.consume, Op.log [98, 98]] →
      d.length + 9 < SIZE_MOD := by
    intro d hd
    simp only [Run.logged, List.mem_cons, List.mem_singleton, List.not_mem_nil, or_false] at hd
    rw [SIZE_MOD_eq]
    rcases hd with rfl | rfl <;> decide
  ⟨rfl, rfl, hrep, fifo_channel (fun _ : Nat => true) (Clogger.ctor []) _ rfl rfl hrep⟩

/-- C5. Drop policy of `log`.  For cursors below `RING_SIZE` and a payload of
length `L` (whose framed length is representable in `size_t`), with
`free_space = RING_SIZE - ((head - tail) mod RING_SIZE)`: `log` takes its
early return exactly when `free_space <= 8 + L + 1`; it leaves `m_head` where
it was exactly in that case; and when it drops, the whole logger state, so
`m_head`, `m_tail` and every ring byte, is unchanged. -/
theorem drop_policy (s : Clogger) (data : List UInt8)
    (hh : s.m_head < RING_SIZE) (ht : s.m_tail < RING_SIZE)
    (hL : data.length + 9 < SIZE_MOD) :
    (s.drops data = true ↔
        (RING_SIZE : Int) - ((s.m_head : Int) - (s.m_tail : Int)) % (RING_SIZE : Int)
          ≤ 8 + (data.length : Int) + 1) ∧
      (s.drops data = true ↔ (s.log data).m_head = s.m_head) ∧
      (s.drops data = true → s.log data = s) := by
  have hd := Clogger.drops_iff s data hL
  have hf : ((Clogger.freeSpace s.m_head s.m_tail : Nat) : Int)
      = (RING_SIZE : Int) - ((s.m_head : Int) - (s.m_tail : Int)) % (RING_SIZE : Int) := by
    unfold Clogger.freeSpace
    rw [RING_SIZE_eq] at *
    split_ifs <;> omega
  refine ⟨?_, ?_, Clogger.log_of_drops s data⟩
  · rw [hd, ← hf]
    omega
  · constructor
    · intro h
      rw [Clogger.log_of_drops s data h]
    · intro h
      cases hb : s.drops data
      · exfalso
        rw [Clogger.log_of_accepts s data hb] at h
        simp only [SIZEOF_eq] at h
        have hn : ¬ (Clogger.freeSpace s.m_head s.m_tail ≤ 8 + data.length + 1) := by
          intro hc
          have := hd.2 hc
          rw [hb] at this
          exact Bool.noConfusion this
        unfold Clogger.freeSpace at hn
        rw [RING_SIZE_eq, SIZE_MOD_eq] at *
        split_ifs at hn <;> omega
      · rfl

theorem drop_policy_witness :
    (Clogger.ctor []).m_head < RING_SIZE ∧ (Clogger.ctor []).m_tail < RING_SIZE ∧
    [104, 105].length + 9 < SIZE_MOD ∧
    (((Clogger.ctor []).drops [104, 105] = true ↔
        (RING_SIZE : Int) - (((Clogger.ctor []).m_head : Int) - ((Clogger.ctor []).m_tail : Int))
          % (RING_SIZE : Int) ≤ 8 + (([104, 105] : List UInt8).length : Int) + 1) ∧
      ((Clogger.ctor []).drops [104, 105] = true ↔
        ((Clogger.ctor []).log [104, 105]).m_head = (Clogger.ctor []).m_head) ∧
      ((Clogger.ctor []).drops [104, 105] = true →
        (Clogger.ctor []).log [104, 105] = Clogger.ctor [])) :=
  ⟨by decide, by decide, by rw [SIZE_MOD_eq]; decide,
    drop_policy (Clogger.ctor []) [104, 105] (by decide) (by decide)
      (by rw [SIZE_MOD_eq]; decide)⟩

/-- C6. Ring cursor invariant.  In every state reachable from
`m_head = m_tail = 0` by `log` calls and consumer iterations, with `pend` the
accepted but not yet dequeued records: `m_head < RING_SIZE`,
`m_tail < RING_SIZE`, the occupied byte count `(m_head - m_tail) mod RING_SIZE`
is the sum of `8 + length` over `pend` and is below `RING_SIZE`, and
`m_head = m_tail` exactly when no record is pending. -/
theorem ring_cursor_invariant (mmap_ok : Nat → Bool) (s0 : Clogger) (ops : List Op) (r : Run)
    (hh : s0.m_head = 0) (ht : s0.m_tail = 0)
    (hrep : ∀ d, d ∈ Run.logged ops → d.length + 9 < SIZE_MOD)
    (hr : Run.run mmap_ok (Run.start s0) ops = some r) :
    ∃ pend, r.accepted = r.dequeued ++ pend ∧
      r.state.m_head < RING_SIZE ∧ r.state.m_tail < RING_SIZE ∧
      ((r.state.m_head : Int) - (r.state.m_tail : Int)) % (RING_SIZE : Int)
        = ((pend.map (fun p => 8 + p.length)).sum : Nat) ∧
      (pend.map (fun p => 8 + p.length)).sum < RING_SIZE ∧
      (r.state.m_head = r.state.m_tail ↔ pend = []) := by
  obtain ⟨pend, hacc, hinv⟩ := Run.good_run mmap_ok ops _ r (Run.good_start s0 hh ht) hrep hr
  refine ⟨pend, hacc, hinv.head_lt, hinv.tail_lt, ?_, hinv.occ_lt,
    Clogger.inv_nil_iff r.state pend hinv⟩
  obtain ⟨h1, h2, h3, h4, _⟩ := hinv
  unfold Clogger.occupied at h3 h4
  generalize (pend.map (fun p => 8 + p.length)).sum = occ at *
  rw [RING_SIZE_eq] at *
  omega

theorem ring_cursor_invariant_witness :
    ∃ pend, ((Run.start (Clogger.ctor [])).afterLog [97]).accepted
        = ((Run.start (Clogger.ctor [])).afterLog [97]).dequeued ++ pend ∧
      ((Run.start (Clogger.ctor [])).afterLog [97]).state.m_head < RING_SIZE ∧
      ((Run.start (Clogger.ctor [])).afterLog [97]).state.m_tail < RING_SIZE ∧
      ((((Run.start (Clogger.ctor [])).afterLog [97]).state.m_head : Int)
          - (((Run.start (Clogger.ctor [])).afterLog [97]).state.m_tail : Int)) % (RING_SIZE : Int)
        = ((pend.map (fun p => 8 + p.length)).sum : Nat) ∧
      (pend.map (fun p => 8 + p.length)).sum < RING_SIZE ∧
      (((Run.start (Clogger.ctor [])).afterLog [97]).state.m_head
          = ((Run.start (Clogger.ctor [])).afterLog [97]).state.m_tail ↔ pend = []) :=
  ring_cursor_invariant (fun _ : Nat => true) (Clogger.ctor []) [Op.log [97]]
    ((Run.start (Clogger.ctor [])).afterLog [97]) rfl rfl
    (by
      intro d hd
      simp only [Run.logged, List.mem_singleton] at hd
      rw [SIZE_MOD_eq, hd]
      decide)
    rfl

/-- C7 (the code at a failing input).  On a fresh logger the worker reads
`m_tail` and `m_head` (lines 140-141) and finds the ring empty; `"a"` is logged
and accepted; the destructor clears the running flag with that record pending
and no further `log`; the worker reads the flag (line 144) and returns.  The
loop has returned from a state with `m_head = 9`, `m_tail = 0`, it has made no
append, and the file is truncated to 0 bytes without the accepted record.
With the worker at the top of its loop when the flag is cleared, the same
record is appended before the loop returns.  A second way to lose a record:
on a reopened 1-byte file the record `"ab"` makes the copy of line 169 leave
the mapping, which ends the worker before it returns. -/
theorem loop_returns_with_record_pending :
    (Exec.exec (fun _ : Nat => true) (Exec.start (Clogger.ctor []))
        [Ev.load, Ev.log [97]]).run.accepted = [[97]] ∧
    (Exec.close (fun _ : Nat => true) 2
        (Exec.exec (fun _ : Nat => true) (Exec.start (Clogger.ctor []))
          [Ev.load, Ev.log [97]])).map
        (fun p => (p.1.pc, p.1.run.state.m_head, p.1.run.state.m_tail, p.1.run.state.m_running))
      = some (Clogger.Pc.returned, 9, 0, false) ∧
    (Exec.close (fun _ : Nat => true) 2
        (Exec.exec (fun _ : Nat => true) (Exec.start (Clogger.ctor []))
          [Ev.load, Ev.log [97]])).map
        (fun p => (p.1.run.accepted, p.1.run.dequeued, p.1.run.stored, p.2))
      = some ([[97]], [], 0, []) ∧
    (Exec.close (fun _ : Nat => true) 5
        (Exec.exec (fun _ : Nat => true) (Exec.start (Clogger.ctor []))
          [Ev.log [97]])).map
        (fun p => (p.1.pc, p.1.run.dequeued, p.1.run.stored, p.2))
      = some (Clogger.Pc.returned, [[97]], 2, [97, 10]) ∧
    (Exec.exec (fun _ : Nat => true) (Exec.start (Clogger.ctor [120]))
        [Ev.log [97, 98], Ev.stop, Ev.load, Ev.act]).pc = Clogger.Pc.killed ∧
    (Exec.close (fun _ : Nat => true) 9
        (Exec.exec (fun _ : Nat => true) (Exec.start (Clogger.ctor [120]))
          [Ev.log [97, 98]])).map (fun p => p.2) = none := by
  refine ⟨by decide, by decide, by decide, by decide, by decide, by decide⟩

/-- C8. Trim on close.  For a logger opened on a file with bytes `P` and any
execution followed by the destructor: the size of the file after close is the
final `m_cursor`, which is the size at open plus the number of payload and
separator bytes stored (in `size_t` arithmetic, so exactly that sum whenever
it is representable); when every `mmap` succeeds the destructor does return
given enough fuel; and opening an empty path and closing with no record
leaves a file of 0 bytes. -/
theorem trim_on_close (mmap_ok : Nat → Bool) (P : List UInt8) (ops : List Op)
    (hP : P.length < SIZE_MOD)
    (hrep : ∀ d, d ∈ Run.logged ops → d.length + 9 < SIZE_MOD) :
    (∀ r fuel r1 file, Run.run mmap_ok (Run.start (Clogger.ctor P)) ops = some r →
        Run.dtor mmap_ok fuel r = some (r1, file) →
        file.length = r1.state.m_cursor ∧
          r1.state.m_cursor = (P.length + r1.stored) % SIZE_MOD ∧
          (P.length + r1.stored < SIZE_MOD → file.length = P.length + r1.stored)) ∧
      ((∀ n, mmap_ok n = true) → ∃ r fuel r1 file,
        Run.run mmap_ok (Run.start (Clogger.ctor P)) ops = some r ∧
          Run.dtor mmap_ok fuel r = some (r1, file)) ∧
      (Run.dtor mmap_ok 1 (Run.start (Clogger.ctor []))).map Prod.snd = some [] := by
  refine ⟨?_, ?_, ?_⟩
  · intro r fuel r1 file hr hd
    have ha := Run.acc_run mmap_ok P ops _ r (Run.acc_start P hP) hr
    unfold Run.dtor at hd
    simp only [Option.map_eq_some'] at hd
    obtain ⟨q, hq, he⟩ := hd
    have ha1 : Run.Acc P { r with state := { r.state with m_running := false } } := ha
    have hq1 : Run.Acc P q := Run.acc_workerLoop mmap_ok P fuel _ q ha1 hq
    injection he with e1 e2
    subst e1
    subst e2
    have hc : q.state.m_cursor = (P.length + q.stored) % SIZE_MOD := hq1
    refine ⟨Run.fileAfterTruncate_length q.state, hc, ?_⟩
    intro hlt
    rw [Run.fileAfterTruncate_length, hc]
    exact Nat.mod_eq_of_lt hlt
  · intro hm
    obtain ⟨r, hr⟩ := Run.run_isSome mmap_ok hm ops (Run.start (Clogger.ctor P))
    obtain ⟨pend, _, hinv⟩ :=
      Run.good_run mmap_ok ops _ r (Run.good_start (Clogger.ctor P) rfl rfl) hrep hr
    have hinv1 : Clogger.ChanInv
        ({ r with state := { r.state with m_running := false } } : Run).state pend :=
      ⟨hinv.head_lt, hinv.tail_lt, hinv.occ_lt, hinv.head_eq, hinv.frames⟩
    obtain ⟨q, h1, _⟩ := Run.drain mmap_ok hm pend _ 0 hinv1 rfl
    refine ⟨r, pend.length + 1 + 0,
      { q with state := { q.state with m_thread := false, fd := false } },
      q.state.fileAfterTruncate, hr, ?_⟩
    unfold Run.dtor
    rw [h1]
    rfl
  · rfl

theorem trim_on_close_witness :
    ([] : List UInt8).length < SIZE_MOD ∧
    (∀ r fuel r1 file,
        Run.run (fun _ : Nat => true) (Run.start (Clogger.ctor [])) [Op.log [97]] = some r →
        Run.dtor (fun _ : Nat => true) fuel r = some (r1, file) →
        file.length = r1.state.m_cursor ∧
          r1.state.m_cursor = (([] : List UInt8).length + r1.stored) % SIZE_MOD ∧
          (([] : List UInt8).length + r1.stored < SIZE_MOD →
            file.length = ([] : List UInt8).length + r1.stored)) :=
  ⟨by rw [SIZE_MOD_eq]; decide,
    (trim_on_close (fun _ : Nat => true) [] [Op.log [97]] (by rw [SIZE_MOD_eq]; decide)
      (by
        intro d hd
        simp only [Run.logged, List.mem_singleton] at hd
        rw [SIZE_MOD_eq, hd]
        decide)).1⟩

/-- C2 (the code at a failing input).  A logger is opened on an empty file;
`"a"` and `"bb"` are logged and appended; the worker reads `m_tail` and
`m_head` (lines 140-141) and finds the ring empty; then `"ccc"` is logged and
accepted and the destructor clears the running flag; the worker reads the flag
(line 144) and returns with `"ccc"` still in the ring.  All three records were
accepted and their nine bytes fit in 4096, yet the file after close is the six
bytes `"a\nbb\n"`.  With the worker at the top of its loop when `"ccc"` is
logged, the same records give the nine bytes `"a\nbb\nccc\n"`. -/
theorem close_race_drops_last_record :
    (Exec.exec (fun _ : Nat => true) (Exec.start (Clogger.ctor []))
        [Ev.log [97], Ev.log [98, 98], Ev.load, Ev.act, Ev.load, Ev.act, Ev.load,
          Ev.log [99, 99, 99]]).run.accepted = [[97], [98, 98], [99, 99, 99]] ∧
    (Exec.close (fun _ : Nat => true) 2
        (Exec.exec (fun _ : Nat => true) (Exec.start (Clogger.ctor []))
          [Ev.log [97], Ev.log [98, 98], Ev.load, Ev.act, Ev.load, Ev.act, Ev.load,
            Ev.log [99, 99, 99]])).map (fun p => (p.1.pc, p.1.run.dequeued, p.2))
      = some (Clogger.Pc.returned, [[97], [98, 98]], [97, 10, 98, 98, 10]) ∧
    (Exec.close (fun _ : Nat => true) 5
        (Exec.exec (fun _ : Nat => true) (Exec.start (Clogger.ctor []))
          [Ev.log [97], Ev.log [98, 98], Ev.load, Ev.act, Ev.load, Ev.act,
            Ev.log [99, 99, 99]])).map (fun p => (p.1.pc, p.1.run.dequeued, p.2))
      = some (Clogger.Pc.returned, [[97], [98, 98], [99, 99, 99]],
          [97, 10, 98, 98, 10, 99, 99, 99, 10]) ∧
    Run.written [[97], [98, 98], [99, 99, 99]] = [97, 10, 98, 98, 10, 99, 99, 99, 10] ∧
    (([[97], [98, 98], [99, 99, 99]] : List (List UInt8)).map (fun d => d.length + 1)).sum
      ≤ 4096 := by
  refine ⟨by decide, by decide, by decide, by decide, by decide⟩

/-- C3 (the code at a failing input).  A logger opened on an empty file
(`fsize` 4096) is given one record of 8193 bytes, which the channel accepts.
The consumer iteration doubles the mapping once, to 8192 bytes, and then
copies the 8193 payload bytes to `[0, 8193)`: the copy ends past the mapped
region, the cursor ends above `fsize`, and no separator is stored. -/
theorem growth_single_doubling_overrun :
    ((Clogger.ctor []).drops (List.replicate 8193 120) = false) ∧
    ∃ g s1,
      Clogger.ensure (fun _ : Nat => true)
          ((Clogger.ctor []).log (List.replicate 8193 120)).dequeue.1 8193 = some g ∧
        ((Clogger.ctor []).log (List.replicate 8193 120)).workerBody (fun _ : Nat => true)
          = Clogger.Outcome.next s1 ∧
        g.fsize = 8192 ∧ g.m_cursor = 0 ∧ g.fsize < g.m_cursor + 8193 ∧
        s1.fsize = 8192 ∧ s1.m_cursor = 8193 ∧ g.storedBy 8193 = 8193 :=
  Run.overrun_8193 (List.replicate 8193 120) (by rw [List.length_replicate])

/-- C4 (the code at a failing input).  A logger reopened on a 1-byte file
(`m_cursor = fsize = 1`, so `m_cursor <= fsize`) dequeues a record of 2
bytes.  The capacity check calls `resizeLog` once, giving `fsize = 2`; the
payload copy to `[1, 3)` does not lie inside `[0, 2)`; after the iteration
`m_cursor = 3 > fsize = 2`. -/
theorem cursor_exceeds_fsize :
    ((Clogger.ctor [120]).log [97, 98]).m_cursor ≤ ((Clogger.ctor [120]).log [97, 98]).fsize ∧
    ((Clogger.ctor [120]).log [97, 98]).dequeue.2 = 2 ∧
    (Clogger.ensure (fun _ : Nat => true) ((Clogger.ctor [120]).log [97, 98]).dequeue.1 2).map
        (fun g => (g.m_cursor, g.fsize)) = some (1, 2) ∧
    (((Clogger.ctor [120]).log [97, 98]).workerBody (fun _ : Nat => true)).state.map
        (fun s1 => (s1.m_cursor, s1.fsize)) = some (3, 2) := by
  decide

/-- C9 (the code at a failing input).  The file holds `"a\nbb\nccc\n"`
(9 bytes); the logger is reopened (`m_cursor = fsize = 9`), the 11-byte record
`"Test Line 0"` is accepted, and the logger is closed.  The single doubling
gives a mapping of 18 bytes, the payload copy to `[9, 20)` runs past it, the
cursor ends at 20 and no separator is stored: the file is the prior content,
the nine bytes `"Test Line"` and two zero bytes, not the prior content
followed by the record and a separator. -/
theorem reopen_overrun :
    (Clogger.ctor [97, 10, 98, 98, 10, 99, 99, 99, 10]).m_cursor = 9 ∧
    (Clogger.ctor [97, 10, 98, 98, 10, 99, 99, 99, 10]).drops
        [84, 101, 115, 116, 32, 76, 105, 110, 101, 32, 48] = false ∧
    (Run.dtor (fun _ : Nat => true) 2
        ((Run.start (Clogger.ctor [97, 10, 98, 98, 10, 99, 99, 99, 10])).afterLog
          [84, 101, 115, 116, 32, 76, 105, 110, 101, 32, 48])).map
        (fun p => (p.1.dequeued, p.1.state.m_cursor, p.1.state.fsize, p.2))
      = some ([[84, 101, 115, 116, 32, 76, 105, 110, 101, 32, 48]], 20, 18,
          [97, 10, 98, 98, 10, 99, 99, 99, 10, 84, 101, 115, 116, 32, 76, 105, 110, 101, 0, 0]) := by
  decide

/-- C10 (counterexample).  A logger reopened on a 1-byte file
(`m_cursor = fsize = 1`) dequeues the empty record: `m_cursor + 0 <= fsize`,
the payload fits, yet `resizeLog` is called (with a failing `mmap` the
iteration is the `exit(1)`) and the iteration leaves `fsize = 2`: the file is
grown only to hold the separator. -/
theorem separator_forces_growth :
    ((Clogger.ctor [120]).log []).dequeue.2 = 0 ∧
    ((Clogger.ctor [120]).log []).m_cursor + ((Clogger.ctor [120]).log []).dequeue.2
      ≤ ((Clogger.ctor [120]).log []).fsize ∧
    ((Clogger.ctor [120]).log []).fsize = 1 ∧
    (((Clogger.ctor [120]).log []).workerBody (fun _ : Nat => true)).state.map
        (fun s1 => (s1.m_cursor, s1.fsize)) = some (2, 2) ∧
    (((Clogger.ctor [120]).log []).workerBody (fun _ : Nat => false)).state.map
        (fun s1 => (s1.m_cursor, s1.fsize)) = none ∧
    ¬ (∀ (mmap_ok : Nat → Bool) (s s1 : Clogger),
        s.workerBody mmap_ok = Clogger.Outcome.next s1 →
        s.m_cursor + s.dequeue.2 ≤ s.fsize → s1.fsize = s.fsize) := by
  refine ⟨by decide, by decide, by decide, by decide, by decide, ?_⟩
  intro h
  obtain ⟨f1, f2, f3, f4⟩ := Run.first_step (fun _ : Nat => true) (Clogger.ctor [120]) []
    rfl rfl (by decide)
  obtain ⟨g, hg⟩ := Run.ensure_isSome (fun _ : Nat => true) (fun _ => rfl)
    ((Clogger.ctor [120]).log []).dequeue.1 ([] : List UInt8).length
  have hw := f4 g hg
  have h1 := h _ _ _ hw (by decide)
  have h2 : (((Clogger.ctor [120]).log []).workerBody (fun _ : Nat => true)).state.map
      (fun s1 => (s1.m_cursor, s1.fsize)) = some (2, 2) := by decide
  rw [hw] at h2
  simp only [Clogger.Outcome.state, Option.map_some', Option.some.injEq, Prod.mk.injEq] at h2
  rw [h2.2] at h1
  revert h1
  decide

/-- C10 (amended).  In a consumer iteration for a record of length `L`, the
file is grown only when the payload together with its separator does not fit:
if `m_cursor + L + 1 <= fsize` then `resizeLog` is not called (also a failing
`mmap` cannot stop the iteration), `fsize` is unchanged by the iteration, and
the record and its separator are stored.  The separator is written only if
room remains after the payload: when `m_cursor + L` is not below `fsize`, the
append stores the payload alone.  When the payload fits exactly
(`m_cursor + L = fsize`), the capacity check is a call of `resizeLog`. -/
theorem growth_only_when_separator_does_not_fit (mmap_ok : Nat → Bool) (s : Clogger)
    (hne : s.m_head ≠ s.m_tail) (hfit : s.m_cursor + s.dequeue.2 + 1 ≤ s.fsize)
    (hM : s.fsize < SIZE_MOD) :
    Clogger.ensure mmap_ok s.dequeue.1 s.dequeue.2 = some s.dequeue.1 ∧
      (∃ s1, s.workerBody mmap_ok = Clogger.Outcome.next s1 ∧ s1.fsize = s.fsize ∧
        s1.m_cursor = s.m_cursor + s.dequeue.2 + 1 ∧ s1.wdata (s.m_cursor + s.dequeue.2) = 10) ∧
      (∀ (g : Clogger) (L : Nat), ¬ ((g.m_cursor + L) % SIZE_MOD < g.fsize) →
        (g.append L).m_cursor = (g.m_cursor + L) % SIZE_MOD ∧
          (g.append L).wdata = memcpy g.wdata g.m_cursor g.scratch 0 L) ∧
      (∀ (t : Clogger) (L : Nat), t.m_cursor + L = t.fsize → t.fsize + 1 < SIZE_MOD →
        Clogger.ensure mmap_ok t L = Clogger.resizeLog mmap_ok t) := by
  obtain ⟨_, _, _, _, d5, d6, _⟩ := Clogger.dequeue_chan s
  have hfit1 : s.dequeue.1.m_cursor + s.dequeue.2 + 1 ≤ s.dequeue.1.fsize := by
    rw [d5, d6]; exact hfit
  have hM1 : s.dequeue.1.fsize < SIZE_MOD := by rw [d6]; exact hM
  have hg := Run.ensure_fit mmap_ok s.dequeue.1 s.dequeue.2 hfit1 hM1
  obtain ⟨a1, a2⟩ := Run.append_fit s.dequeue.1 s.dequeue.2 hfit1 hM1
  refine ⟨hg, ⟨{ s.dequeue.1.append s.dequeue.2 with
      m_tail := (s.m_tail + SIZEOF_SIZE_T + s.dequeue.2) % SIZE_MOD % RING_SIZE },
    ?_, ?_, ?_, ?_⟩, ?_⟩
  · rw [Clogger.workerBody_of_ne mmap_ok s hne, hg]
  · show (s.dequeue.1.append s.dequeue.2).fsize = s.fsize
    rw [(Clogger.append_chan _ _).2.2.2.2.2, d6]
  · show (s.dequeue.1.append s.dequeue.2).m_cursor = s.m_cursor + s.dequeue.2 + 1
    rw [a1, d5]
  · show (s.dequeue.1.append s.dequeue.2).wdata (s.m_cursor + s.dequeue.2) = 10
    rw [a2, d5, Function.update_same]
  · refine ⟨?_, ?_⟩
    · intro g L hno
      unfold Clogger.append
      simp only
      rw [if_neg hno]
      exact ⟨rfl, rfl⟩
    · intro t L ht hlt
      unfold Clogger.ensure
      rw [ht, Nat.mod_eq_of_lt hlt, if_pos (Nat.lt_succ_self _)]

theorem growth_only_when_separator_does_not_fit_witness :
    ((Clogger.ctor []).log [97]).m_head ≠ ((Clogger.ctor []).log [97]).m_tail ∧
    ((Clogger.ctor []).log [97]).m_cursor + ((Clogger.ctor []).log [97]).dequeue.2 + 1
      ≤ ((Clogger.ctor []).log [97]).fsize ∧
    ((Clogger.ctor []).log [97]).fsize < SIZE_MOD ∧
    Clogger.ensure (fun _ : Nat => false) ((Clogger.ctor []).log [97]).dequeue.1
        ((Clogger.ctor []).log [97]).dequeue.2 = some ((Clogger.ctor []).log [97]).dequeue.1 ∧
    (∃ s1, ((Clogger.ctor []).log [97]).workerBody (fun _ : Nat => false)
        = Clogger.Outcome.next s1 ∧ s1.fsize = ((Clogger.ctor []).log [97]).fsize ∧
      s1.m_cursor = ((Clogger.ctor []).log [97]).m_cursor
        + ((Clogger.ctor []).log [97]).dequeue.2 + 1 ∧
      s1.wdata (((Clogger.ctor []).log [97]).m_cursor
        + ((Clogger.ctor []).log [97]).dequeue.2) = 10) :=
  have h := growth_only_when_separator_does_not_fit (fun _ : Nat => false)
    ((Clogger.ctor []).log [97]) (by decide) (by decide) (by rw [SIZE_MOD_eq]; decide)
  ⟨by decide, by decide, by rw [SIZE_MOD_eq]; decide, h.1, h.2.1⟩

theorem queue_file_length (s : QueueClogger) : s.fileAfterTruncate.length = s.m_cursor := by
  simp [QueueClogger.fileAfterTruncate]

/-- C11 (the code at a failing input).  The queue variant is opened on an
empty file: the constructor sets `fsize = 4096` and then `m_cursor = fsize`, so
the cursor starts at 4096, not at 0.  After `"a"`, `"bb"`, `"ccc"` and the
destructor, the cursor is 4105: the file has 4105 bytes, its first 4096 bytes
are the zero bytes of the preallocation, and the nine bytes
`"a\nbb\nccc\n"` come after them, at offsets 4096 to 4104. -/
theorem queue_fresh_file_starts_at_4096 :
    (QueueClogger.ctor []).m_cursor = 4096 ∧
    (QueueClogger.dtor (fun _ : Nat => true) 4
        (((QueueClogger.ctor []).log [97]).log [98, 98] |>.log [99, 99, 99])).map
      (fun p => (p.2.length, p.1.m_cursor, p.1.fsize, p.1.m_tasks)) = some (4105, 4105, 8192, []) ∧
    (QueueClogger.dtor (fun _ : Nat => true) 4
        (((QueueClogger.ctor []).log [97]).log [98, 98] |>.log [99, 99, 99])).map
      (fun p => (p.1.wdata 0, p.1.wdata 1, p.1.wdata 4095,
        (List.range 9).map (fun i => p.1.wdata (4096 + i))))
      = some (0, 0, 0, [97, 10, 98, 98, 10, 99, 99, 99, 10]) := by
  refine ⟨by decide, ?_, by decide⟩
  have h : (QueueClogger.workerLoop (fun _ : Nat => true) 4
      { (((QueueClogger.ctor []).log [97]).log [98, 98] |>.log [99, 99, 99]) with
        m_running := false }).map
      (fun s1 => (s1.m_cursor, s1.fsize, s1.m_tasks)) = some (4105, 8192, []) := by
    decide
  unfold QueueClogger.dtor
  cases hw : QueueClogger.workerLoop (fun _ : Nat => true) 4
      { (((QueueClogger.ctor []).log [97]).log [98, 98] |>.log [99, 99, 99]) with
        m_running := false } with
  | none => rw [hw] at h; exact Option.noConfusion h
  | some s1 =>
    rw [hw] at h
    simp only [Option.map_some', Option.some.injEq, Prod.mk.injEq] at h ⊢
    obtain ⟨h1, h2, h3⟩ := h
    refine ⟨?_, h1, h2, h3⟩
    rw [queue_file_length, h1]

theorem log_frame (s : Clogger) (data : List UInt8) :
    (s.log data).m_tail = s.m_tail ∧ (s.log data).m_thread = s.m_thread ∧
      (s.log data).m_cursor = s.m_cursor ∧ (s.log data).fsize = s.fsize ∧
      (s.log data).wdata = s.wdata := by
  cases hb : s.drops data
  · rw [Clogger.log_of_accepts s data hb]
    exact ⟨rfl, rfl, rfl, rfl, rfl⟩
  · rw [Clogger.log_of_drops s data hb]
    exact ⟨rfl, rfl, rfl, rfl, rfl⟩

theorem foldl_log_frame (datas : List (List UInt8)) :
    ∀ s : Clogger, (datas.foldl Clogger.log s).m_tail = s.m_tail ∧
      (datas.foldl Clogger.log s).m_thread = s.m_thread ∧
      (datas.foldl Clogger.log s).m_cursor = s.m_cursor ∧
      (datas.foldl Clogger.log s).fsize = s.fsize ∧
      (datas.foldl Clogger.log s).wdata = s.wdata := by
  induction datas with
  | nil => intro s; exact ⟨rfl, rfl, rfl, rfl, rfl⟩
  | cons d ds ih =>
    intro s
    obtain ⟨a1, a2, a3, a4, a5⟩ := ih (s.log d)
    obtain ⟨b1, b2, b3, b4, b5⟩ := log_frame s d
    simp only [List.foldl_cons]
    exact ⟨a1.trans b1, a2.trans b2, a3.trans b3, a4.trans b4, a5.trans b5⟩

theorem construct_failed (open_ok fstat_ok : Bool) (mmap_ok : Nat → Bool) (file : List UInt8)
    (junk : Clogger)
    (hfail : open_ok = false ∨ fstat_ok = false ∨
      mmap_ok (if file.length = 0 then 4096 else file.length) = false) :
    (Clogger.construct open_ok fstat_ok mmap_ok file junk).m_thread = false ∧
      (Clogger.construct open_ok fstat_ok mmap_ok file junk).m_head = 0 ∧
      (Clogger.construct open_ok fstat_ok mmap_ok file junk).m_tail = 0 := by
  unfold Clogger.construct
  cases open_ok
  · exact ⟨rfl, rfl, rfl⟩
  · cases fstat_ok
    · exact ⟨rfl, rfl, rfl⟩
    · have hm : mmap_ok (if file.length = 0 then 4096 else file.length) = false := by
        rcases hfail with h | h | h
        · exact Bool.noConfusion h
        · exact Bool.noConfusion h
        · exact h
      simp only [Bool.not_true, Bool.false_eq_true, if_false]
      rw [hm]
      exact ⟨rfl, rfl, rfl⟩

/-- When all three calls succeed, `construct` is the successful path `ctor`. -/
theorem construct_ok (mmap_ok : Nat → Bool) (file : List UInt8) (junk : Clogger)
    (hm : mmap_ok (if file.length = 0 then 4096 else file.length) = true) :
    Clogger.construct true true mmap_ok file junk = Clogger.ctor file := by
  unfold Clogger.construct Clogger.ctor
  simp only [Bool.not_true, Bool.false_eq_true, if_false, hm]

/-- C12 (counterexample).  `open` fails, so no consumer is started; the first
`log("a")` on the degraded logger is accepted: it stores the length prefix and
the payload in the ring and moves `m_head` from 0 to 9. -/
theorem degraded_log_advances_head :
    (Clogger.construct false true (fun _ : Nat => true) [] (Clogger.ctor [])).m_thread = false ∧
    (Clogger.construct false true (fun _ : Nat => true) [] (Clogger.ctor [])).m_head = 0 ∧
    ((Clogger.construct false true (fun _ : Nat => true) [] (Clogger.ctor [])).log [97]).m_head
      = 9 ∧
    (Clogger.construct false true (fun _ : Nat => true) [] (Clogger.ctor [])).m_ring 8 = 0 ∧
    ((Clogger.construct false true (fun _ : Nat => true) [] (Clogger.ctor [])).log [97]).m_ring 8
      = 97 ∧
    (Clogger.construct false true (fun _ : Nat => true) [] (Clogger.ctor [])).log [97]
      ≠ Clogger.construct false true (fun _ : Nat => true) [] (Clogger.ctor []) := by
  refine ⟨by decide, by decide, by decide, by decide, by decide, ?_⟩
  intro h
  have h9 : ((Clogger.construct false true (fun _ : Nat => true) [] (Clogger.ctor [])).log
      [97]).m_head = 9 := by decide
  rw [h] at h9
  revert h9
  decide

/-- C12 (amended).  When construction fails (`open`, `fstat` or the initial
`mmap` fails) no consumer is started, and no sequence of `log` calls moves
`m_tail` or touches the mapping, the cursor or `fsize`: nothing is appended to
any file.  `log` itself is not a no-op: it applies its usual drop test, and the
first payload of length `L <= RING_SIZE - 10` is accepted and moves `m_head`
from 0 to `8 + L`. -/
theorem degraded_log_persists_nothing (open_ok fstat_ok : Bool) (mmap_ok : Nat → Bool)
    (file : List UInt8) (junk : Clogger) (datas : List (List UInt8))
    (hfail : open_ok = false ∨ fstat_ok = false ∨
      mmap_ok (if file.length = 0 then 4096 else file.length) = false) :
    (Clogger.construct open_ok fstat_ok mmap_ok file junk).m_thread = false ∧
      (datas.foldl Clogger.log (Clogger.construct open_ok fstat_ok mmap_ok file junk)).m_thread
        = false ∧
      (datas.foldl Clogger.log (Clogger.construct open_ok fstat_ok mmap_ok file junk)).m_tail
        = 0 ∧
      (datas.foldl Clogger.log (Clogger.construct open_ok fstat_ok mmap_ok file junk)).wdata
        = (Clogger.construct open_ok fstat_ok mmap_ok file junk).wdata ∧
      (datas.foldl Clogger.log (Clogger.construct open_ok fstat_ok mmap_ok file junk)).m_cursor
        = (Clogger.construct open_ok fstat_ok mmap_ok file junk).m_cursor ∧
      (datas.foldl Clogger.log (Clogger.construct open_ok fstat_ok mmap_ok file junk)).fsize
        = (Clogger.construct open_ok fstat_ok mmap_ok file junk).fsize ∧
      (∀ data : List UInt8, data.length ≤ RING_SIZE - 10 →
        (Clogger.construct open_ok fstat_ok mmap_ok file junk).drops data = false ∧
        ((Clogger.construct open_ok fstat_ok mmap_ok file junk).log data).m_head
          = 8 + data.length) := by
  obtain ⟨c1, c2, c3⟩ := construct_failed open_ok fstat_ok mmap_ok file junk hfail
  obtain ⟨f1, f2, f3, f4, f5⟩ :=
    foldl_log_frame datas (Clogger.construct open_ok fstat_ok mmap_ok file junk)
  refine ⟨c1, f2.trans c1, f1.trans c3, f5, f3, f4, ?_⟩
  intro data hL
  have hrep : data.length + 9 < SIZE_MOD := by
    rw [RING_SIZE_eq] at hL; rw [SIZE_MOD_eq]; omega
  have hinv := Run.chanInv_start _ c2 c3
  have e0 : Clogger.occupied [] = 0 := rfl
  have hnd := (Clogger.accepts_iff_of_inv _ [] data hinv hrep).2
    (by rw [e0]; rw [RING_SIZE_eq] at hL ⊢; omega)
  refine ⟨hnd, ?_⟩
  rw [Clogger.log_of_accepts _ data hnd]
  simp only [c2, SIZEOF_eq]
  rw [RING_SIZE_eq] at hL ⊢
  rw [SIZE_MOD_eq]
  omega

theorem degraded_log_persists_nothing_witness :
    (false = false ∨ true = false ∨
      (fun _ : Nat => true) (if ([] : List UInt8).length = 0 then 4096
        else ([] : List UInt8).length) = false) ∧
    ([[97], [98, 98]].foldl Clogger.log
        (Clogger.construct false true (fun _ : Nat => true) [] (Clogger.ctor []))).m_tail = 0 ∧
    ([[97], [98, 98]].foldl Clogger.log
        (Clogger.construct false true (fun _ : Nat => true) [] (Clogger.ctor []))).m_cursor
      = (Clogger.construct false true (fun _ : Nat => true) [] (Clogger.ctor [])).m_cursor :=
  have h := degraded_log_persists_nothing false true (fun _ : Nat => true) [] (Clogger.ctor [])
    [[97], [98, 98]] (Or.inl rfl)
  ⟨Or.inl rfl, h.2.2.1, h.2.2.2.2.1⟩

theorem frameBytes_getD_lt (data : List UInt8) (i : Nat) (hi : i < 8) :
    (Clogger.frameBytes data).getD i 0 = sizeByte data.length i := by
  unfold Clogger.frameBytes
  rw [List.getD_append _ _ _ _ (by simp; exact hi)]
  rw [List.getD_eq_getElem _ _ (by simp; exact hi)]
  simp

theorem frameBytes_getD_ge (data : List UInt8) (i : Nat) :
    (Clogger.frameBytes data).getD (8 + i) 0 = data.getD i 0 := by
  unfold Clogger.frameBytes
  rw [List.getD_append_right _ _ _ _ (by simp)]
  congr 1
  simp

/-- An accepted payload, framed, is shorter than the free space, which is at
most the ring. -/
theorem accept_bound (s : Clogger) (data : List UInt8) (ht : s.m_tail < RING_SIZE)
    (hL : data.length + 9 < SIZE_MOD) (hacc : s.drops data = false) :
    data.length + 9 < Clogger.freeSpace s.m_head s.m_tail ∧
      Clogger.freeSpace s.m_head s.m_tail ≤ RING_SIZE := by
  have hd := Clogger.drops_iff s data hL
  have hn : ¬ (Clogger.freeSpace s.m_head s.m_tail ≤ 8 + data.length + 1) := by
    intro hc
    have := hd.2 hc
    rw [hacc] at this
    exact Bool.noConfusion this
  refine ⟨by omega, ?_⟩
  unfold Clogger.freeSpace
  split_ifs <;> omega

theorem log_head_of_accepts (s : Clogger) (data : List UInt8)
    (hacc : s.drops data = false) :
    (s.log data).m_head = (s.m_head + 8 + data.length) % RING_SIZE ∧
      (s.log data).m_ring = Clogger.logRing s data := by
  rw [Clogger.log_of_accepts s data hacc]
  refine ⟨?_, rfl⟩
  simp only [SIZEOF_eq]
  rw [RING_SIZE_eq, SIZE_MOD_eq] at *
  omega

/-- C13. Frame layout with wraparound.  For cursors below `RING_SIZE` and a
payload accepted by `log` (length `L`), with `frameBytes` the 8 length bytes
followed by the payload: after `log`, for every `i < 8 + L` the ring byte at
`(head + i) mod RING_SIZE` is byte `i` of the frame, every other ring byte is
unchanged, and the new head is `(head + 8 + L) mod RING_SIZE`; so the loop for
the prefix and the one or two `memcpy` calls for the payload amount to the
byte-wise modular write, wherever the frame lies in the ring. -/
theorem frame_layout (s : Clogger) (data : List UInt8)
    (hh : s.m_head < RING_SIZE) (ht : s.m_tail < RING_SIZE)
    (hL : data.length + 9 < SIZE_MOD) (hacc : s.drops data = false) :
    (∀ i, i < 8 + data.length →
        (s.log data).m_ring ((s.m_head + i) % RING_SIZE) = (Clogger.frameBytes data).getD i 0) ∧
      (∀ k, (∀ i, i < 8 + data.length → k ≠ (s.m_head + i) % RING_SIZE) →
        (s.log data).m_ring k = s.m_ring k) ∧
      (s.log data).m_head = (s.m_head + 8 + data.length) % RING_SIZE ∧
      (s.log data).m_tail = s.m_tail := by
  obtain ⟨b1, b2⟩ := accept_bound s data ht hL hacc
  have hR : data.length + 9 < RING_SIZE := by omega
  obtain ⟨e1, e2⟩ := log_head_of_accepts s data hacc
  refine ⟨?_, ?_, e1, (log_frame s data).1⟩
  · intro i hi
    rw [e2]
    by_cases h8 : i < 8
    · rw [frameBytes_getD_lt data i h8]
      exact Clogger.logRing_len s data i hh hR h8
    · obtain ⟨j, rfl⟩ : ∃ j, i = 8 + j := ⟨i - 8, by omega⟩
      rw [frameBytes_getD_ge, ← Nat.add_assoc]
      exact Clogger.logRing_payload s data j hh hR (by omega)
  · intro k hk
    rw [e2]
    exact Clogger.logRing_other s data k hh hR hk

theorem frame_layout_witness :
    ({ Clogger.ctor [] with m_head := 4194301, m_tail := 4194301 } : Clogger).m_head < RING_SIZE ∧
    ({ Clogger.ctor [] with m_head := 4194301, m_tail := 4194301 } : Clogger).m_tail < RING_SIZE ∧
    ([97, 98] : List UInt8).length + 9 < SIZE_MOD ∧
    ({ Clogger.ctor [] with m_head := 4194301, m_tail := 4194301 } : Clogger).drops [97, 98]
      = false ∧
    (∀ i, i < 8 + ([97, 98] : List UInt8).length →
      (({ Clogger.ctor [] with m_head := 4194301, m_tail := 4194301 } : Clogger).log
          [97, 98]).m_ring ((4194301 + i) % RING_SIZE)
        = (Clogger.frameBytes [97, 98]).getD i 0) ∧
    (({ Clogger.ctor [] with m_head := 4194301, m_tail := 4194301 } : Clogger).log
        [97, 98]).m_head = (4194301 + 8 + ([97, 98] : List UInt8).length) % RING_SIZE :=
  have h := frame_layout { Clogger.ctor [] with m_head := 4194301, m_tail := 4194301 } [97, 98]
    (by decide) (by decide) (by rw [SIZE_MOD_eq]; decide) (by decide)
  ⟨by decide, by decide, by rw [SIZE_MOD_eq]; decide, by decide, h.1, h.2.2.1⟩

theorem freeSpace_int (s : Clogger) (hh : s.m_head < RING_SIZE) (ht : s.m_tail < RING_SIZE) :
    ((Clogger.freeSpace s.m_head s.m_tail : Nat) : Int)
      = (RING_SIZE : Int) - ((s.m_head : Int) - (s.m_tail : Int)) % (RING_SIZE : Int) := by
  unfold Clogger.freeSpace
  rw [RING_SIZE_eq] at *
  split_ifs <;> omega

/-- C14. No overwrite of unread data.  For cursors below `RING_SIZE` and any
payload, `log` leaves unchanged every ring byte of the occupied region, the
indices `(tail + j) mod RING_SIZE` with `j < (head - tail) mod RING_SIZE`; and
every ring byte that `log` changes lies in the free region, at an index
`(head + i) mod RING_SIZE` with `i` below the free space
`RING_SIZE - ((head - tail) mod RING_SIZE)`. -/
theorem no_overwrite_of_unread (s : Clogger) (data : List UInt8)
    (hh : s.m_head < RING_SIZE) (ht : s.m_tail < RING_SIZE)
    (hL : data.length + 9 < SIZE_MOD) :
    (∀ j : Nat, (j : Int) < ((s.m_head : Int) - (s.m_tail : Int)) % (RING_SIZE : Int) →
        (s.log data).m_ring ((s.m_tail + j) % RING_SIZE)
          = s.m_ring ((s.m_tail + j) % RING_SIZE)) ∧
      (∀ k, (s.log data).m_ring k ≠ s.m_ring k →
        ∃ i : Nat, (i : Int) < (RING_SIZE : Int)
            - ((s.m_head : Int) - (s.m_tail : Int)) % (RING_SIZE : Int) ∧
          k = (s.m_head + i) % RING_SIZE) := by
  cases hb : s.drops data
  · obtain ⟨b1, b2⟩ := accept_bound s data ht hL hb
    have hR : data.length + 9 < RING_SIZE := by omega
    have hf := freeSpace_int s hh ht
    obtain ⟨_, e2⟩ := log_head_of_accepts s data hb
    rw [e2]
    refine ⟨?_, ?_⟩
    · intro j hj
      apply Clogger.logRing_other s data _ hh hR
      intro i hi
      rw [RING_SIZE_eq] at *
      omega
    · intro k hk
      by_contra hn
      apply hk
      apply Clogger.logRing_other s data _ hh hR
      intro i hi hki
      apply hn
      refine ⟨i, ?_, hki⟩
      rw [← hf]
      omega
  · rw [Clogger.log_of_drops s data hb]
    exact ⟨fun _ _ => rfl, fun k hk => absurd rfl hk⟩

theorem no_overwrite_of_unread_witness :
    ((Clogger.ctor []).log [97]).m_head < RING_SIZE ∧
    ((Clogger.ctor []).log [97]).m_tail < RING_SIZE ∧
    ([98] : List UInt8).length + 9 < SIZE_MOD ∧
    (∀ j : Nat, (j : Int) < ((((Clogger.ctor []).log [97]).m_head : Int)
          - (((Clogger.ctor []).log [97]).m_tail : Int)) % (RING_SIZE : Int) →
        (((Clogger.ctor []).log [97]).log [98]).m_ring
            ((((Clogger.ctor []).log [97]).m_tail + j) % RING_SIZE)
          = ((Clogger.ctor []).log [97]).m_ring
            ((((Clogger.ctor []).log [97]).m_tail + j) % RING_SIZE)) :=
  ⟨by decide, by decide, by rw [SIZE_MOD_eq]; decide,
    (no_overwrite_of_unread ((Clogger.ctor []).log [97]) [98] (by decide) (by decide)
      (by rw [SIZE_MOD_eq]; decide)).1⟩

theorem resizeLog_of_ok (mmap_ok : Nat → Bool) (s : Clogger)
    (hm : mmap_ok (s.fsize * 2 % SIZE_MOD) = true) :
    Clogger.resizeLog mmap_ok s
      = some { s with wdata := fun i => if i < s.fsize then s.wdata i else 0,
                      fsize := s.fsize * 2 % SIZE_MOD } := by
  unfold Clogger.resizeLog
  simp only [hm, if_true]

theorem ensure_cases (mmap_ok : Nat → Bool) (t : Clogger) (n : Nat) :
    Clogger.ensure mmap_ok t n = some t ∨
      Clogger.ensure mmap_ok t n = Clogger.resizeLog mmap_ok t := by
  unfold Clogger.ensure
  split_ifs
  · exact Or.inr rfl
  · exact Or.inl rfl

/-- C16. Growth is a plain doubling that keeps committed data.  When the
remapping succeeds (and the doubled size is representable in `size_t`),
`resizeLog` returns with `fsize` exactly `2 * (old fsize)`, the cursor
unchanged and every byte of `[0, old fsize)` unchanged.  It is invoked at most
once per consumer iteration: the capacity check either leaves the state as it
is or is exactly one call of `resizeLog`, so an iteration that runs to its end
leaves `fsize` unchanged or doubled once. -/
theorem resizeLog_doubles (mmap_ok : Nat → Bool) (s : Clogger)
    (hrep : s.fsize * 2 < SIZE_MOD) (hm : mmap_ok (s.fsize * 2 % SIZE_MOD) = true) :
    (∃ g, Clogger.resizeLog mmap_ok s = some g ∧ g.fsize = 2 * s.fsize ∧
        g.m_cursor = s.m_cursor ∧ (∀ i, i < s.fsize → g.wdata i = s.wdata i)) ∧
      (∀ (t : Clogger) (n : Nat), Clogger.ensure mmap_ok t n = some t ∨
        Clogger.ensure mmap_ok t n = Clogger.resizeLog mmap_ok t) ∧
      (∀ t t1 : Clogger, t.workerBody mmap_ok = Clogger.Outcome.next t1 →
        t1.fsize = t.fsize ∨ t1.fsize = t.fsize * 2 % SIZE_MOD) := by
  refine ⟨⟨_, resizeLog_of_ok mmap_ok s hm, ?_, rfl, ?_⟩, ensure_cases mmap_ok, ?_⟩
  · show s.fsize * 2 % SIZE_MOD = 2 * s.fsize
    rw [Nat.mod_eq_of_lt hrep, Nat.mul_comm]
  · intro i hi
    show (if i < s.fsize then s.wdata i else 0) = s.wdata i
    rw [if_pos hi]
  · intro t t1 hw
    obtain ⟨_, g, hg, rfl⟩ := Run.next_shape mmap_ok t t1 hw
    obtain ⟨_, _, _, _, _, d6, _⟩ := Clogger.dequeue_chan t
    show (g.append t.dequeue.2).fsize = t.fsize ∨ (g.append t.dequeue.2).fsize = _
    rw [(Clogger.append_chan g _).2.2.2.2.2]
    rcases ensure_cases mmap_ok t.dequeue.1 t.dequeue.2 with h | h
    · rw [h] at hg
      injection hg with hg
      left
      rw [← hg, d6]
    · rw [h] at hg
      right
      unfold Clogger.resizeLog at hg
      simp only at hg
      split_ifs at hg
      injection hg with hg
      rw [← hg, ← d6]

theorem resizeLog_doubles_witness :
    (Clogger.ctor []).fsize * 2 < SIZE_MOD ∧
    (fun _ : Nat => true) ((Clogger.ctor []).fsize * 2 % SIZE_MOD) = true ∧
    (∃ g, Clogger.resizeLog (fun _ : Nat => true) (Clogger.ctor []) = some g ∧
      g.fsize = 2 * (Clogger.ctor []).fsize ∧ g.m_cursor = (Clogger.ctor []).m_cursor ∧
      (∀ i, i < (Clogger.ctor []).fsize → g.wdata i = (Clogger.ctor []).wdata i)) :=
  ⟨by rw [SIZE_MOD_eq]; decide, rfl,
    (resizeLog_doubles (fun _ : Nat => true) (Clogger.ctor []) (by rw [SIZE_MOD_eq]; decide)
      rfl).1⟩

/-- C17. Separator is always written in the ring variant.  For a consumer
iteration on a record of length `L` with `m_cursor + L + 1 <= 2 * fsize` (the
doubled size representable, and the remap succeeding when growth is needed):
the iteration runs to its end, the separator branch is taken, after it
`m_cursor = (old m_cursor) + L + 1`, the byte at `(old m_cursor) + L` is the
newline, and `m_cursor <= fsize`.  This holds in particular for every state
with `m_cursor <= fsize` before the iteration; that bound is not needed. -/
theorem separator_always_written (mmap_ok : Nat → Bool) (s : Clogger)
    (hne : s.m_head ≠ s.m_tail)
    (hL : s.m_cursor + s.dequeue.2 + 1 ≤ 2 * s.fsize)
    (hrep : s.fsize * 2 < SIZE_MOD)
    (hm : s.fsize < s.m_cursor + s.dequeue.2 + 1 → mmap_ok (s.fsize * 2 % SIZE_MOD) = true) :
    ∃ s1, s.workerBody mmap_ok = Clogger.Outcome.next s1 ∧
      s1.m_cursor = s.m_cursor + s.dequeue.2 + 1 ∧
      s1.wdata (s.m_cursor + s.dequeue.2) = 10 ∧
      s1.m_cursor ≤ s1.fsize ∧
      (s.dequeue.1.m_cursor + s.dequeue.2) % SIZE_MOD < s1.fsize := by
  obtain ⟨_, _, _, _, d5, d6, _⟩ := Clogger.dequeue_chan s
  have key : ∃ g, Clogger.ensure mmap_ok s.dequeue.1 s.dequeue.2 = some g ∧
      g.m_cursor = s.m_cursor ∧ g.m_cursor + s.dequeue.2 + 1 ≤ g.fsize ∧ g.fsize < SIZE_MOD := by
    by_cases hfit : s.m_cursor + s.dequeue.2 + 1 ≤ s.fsize
    · refine ⟨s.dequeue.1, ?_, d5, by rw [d5, d6]; exact hfit, by rw [d6]; omega⟩
      exact Run.ensure_fit mmap_ok _ _ (by rw [d5, d6]; exact hfit) (by rw [d6]; omega)
    · have hm1 := hm (by omega)
      rw [← d6] at hm1
      refine ⟨{ s.dequeue.1 with
          wdata := fun i => if i < s.dequeue.1.fsize then s.dequeue.1.wdata i else 0,
          fsize := s.dequeue.1.fsize * 2 % SIZE_MOD }, ?_, d5, ?_, ?_⟩
      · unfold Clogger.ensure
        rw [d5, d6, Nat.mod_eq_of_lt (by omega), if_pos (by omega), ← d6]
        exact resizeLog_of_ok mmap_ok s.dequeue.1 hm1
      · show s.dequeue.1.m_cursor + s.dequeue.2 + 1 ≤ s.dequeue.1.fsize * 2 % SIZE_MOD
        rw [d5, d6, Nat.mod_eq_of_lt hrep]
        omega
      · show s.dequeue.1.fsize * 2 % SIZE_MOD < SIZE_MOD
        exact Nat.mod_lt _ (by rw [SIZE_MOD_eq]; decide)
  obtain ⟨g, hg, hgc, hgf, hgM⟩ := key
  obtain ⟨a1, a2⟩ := Run.append_fit g s.dequeue.2 hgf hgM
  refine ⟨{ g.append s.dequeue.2 with
      m_tail := (s.m_tail + SIZEOF_SIZE_T + s.dequeue.2) % SIZE_MOD % RING_SIZE },
    ?_, ?_, ?_, ?_, ?_⟩
  · rw [Clogger.workerBody_of_ne mmap_ok s hne, hg]
  · show (g.append s.dequeue.2).m_cursor = s.m_cursor + s.dequeue.2 + 1
    rw [a1, hgc]
  · show (g.append s.dequeue.2).wdata (s.m_cursor + s.dequeue.2) = 10
    rw [a2, hgc, Function.update_same]
  · show (g.append s.dequeue.2).m_cursor ≤ (g.append s.dequeue.2).fsize
    rw [a1, (Clogger.append_chan g _).2.2.2.2.2]
    exact hgf
  · show (s.dequeue.1.m_cursor + s.dequeue.2) % SIZE_MOD < (g.append s.dequeue.2).fsize
    rw [(Clogger.append_chan g _).2.2.2.2.2, d5, Nat.mod_eq_of_lt (by omega)]
    omega

theorem separator_always_written_witness :
    ((Clogger.ctor [120]).log []).m_head ≠ ((Clogger.ctor [120]).log []).m_tail ∧
    ((Clogger.ctor [120]).log []).m_cursor ≤ ((Clogger.ctor [120]).log []).fsize ∧
    ((Clogger.ctor [120]).log []).m_cursor + ((Clogger.ctor [120]).log []).dequeue.2 + 1
      ≤ 2 * ((Clogger.ctor [120]).log []).fsize ∧
    ((Clogger.ctor [120]).log []).fsize * 2 < SIZE_MOD ∧
    ∃ s1, ((Clogger.ctor [120]).log []).workerBody (fun _ : Nat => true)
        = Clogger.Outcome.next s1 ∧
      s1.m_cursor = ((Clogger.ctor [120]).log []).m_cursor
        + ((Clogger.ctor [120]).log []).dequeue.2 + 1 ∧
      s1.wdata (((Clogger.ctor [120]).log []).m_cursor
        + ((Clogger.ctor [120]).log []).dequeue.2) = 10 ∧
      s1.m_cursor ≤ s1.fsize ∧
      (((Clogger.ctor [120]).log []).dequeue.1.m_cursor
        + ((Clogger.ctor [120]).log []).dequeue.2) % SIZE_MOD < s1.fsize :=
  ⟨by decide, by decide, by decide, by rw [SIZE_MOD_eq]; decide,
    separator_always_written (fun _ : Nat => true) ((Clogger.ctor [120]).log [])
      (by decide) (by decide) (by rw [SIZE_MOD_eq]; decide) (fun _ => rfl)⟩

/-- C18. Largest accepted record (`RING_SIZE = 4194304`).  For a payload of
length `L` with `8 + L + 1` representable in 64 bits: on an empty channel
(`m_head = m_tail`) `log` accepts it if and only if
`L <= RING_SIZE - 10 = 4194294`; and with `L >= RING_SIZE - 9` it is dropped in
every channel state (both cursors below `RING_SIZE`), leaving the state
unchanged. -/
theorem largest_accepted_record (s : Clogger) (data : List UInt8)
    (hL : data.length + 9 < SIZE_MOD) :
    RING_SIZE = 4194304 ∧ RING_SIZE - 10 = 4194294 ∧
      (s.m_head = s.m_tail → (s.drops data = false ↔ data.length ≤ RING_SIZE - 10)) ∧
      (s.m_head = s.m_tail → data.length ≤ RING_SIZE - 10 → s.log data ≠ s) ∧
      (s.m_head < RING_SIZE → s.m_tail < RING_SIZE → RING_SIZE - 9 ≤ data.length →
        s.drops data = true ∧ s.log data = s) := by
  have hd := Clogger.drops_iff s data hL
  have hdf : s.drops data = false ↔
      ¬ (Clogger.freeSpace s.m_head s.m_tail ≤ 8 + data.length + 1) := by
    rw [← hd]
    cases s.drops data <;> simp
  refine ⟨RING_SIZE_eq, by rw [RING_SIZE_eq], ?_, ?_, ?_⟩
  · intro he
    rw [hdf]
    unfold Clogger.freeSpace
    rw [he, if_pos (Nat.le_refl _), Nat.sub_self, RING_SIZE_eq]
    omega
  · intro he hle hlog
    have hnd : s.drops data = false := by
      rw [hdf]
      unfold Clogger.freeSpace
      rw [he, if_pos (Nat.le_refl _), Nat.sub_self]
      rw [RING_SIZE_eq] at hle ⊢
      omega
    have h1 := (log_head_of_accepts s data hnd).1
    rw [hlog] at h1
    have h2 : s.m_head < RING_SIZE := by
      rw [h1]
      exact Nat.mod_lt _ (by rw [RING_SIZE_eq]; decide)
    rw [RING_SIZE_eq] at *
    omega
  · intro hh ht hge
    have hb : s.drops data = true := by
      rw [hd]
      unfold Clogger.freeSpace
      rw [RING_SIZE_eq] at *
      split_ifs <;> omega
    exact ⟨hb, Clogger.log_of_drops s data hb⟩

theorem largest_accepted_record_witness :
    ([97] : List UInt8).length + 9 < SIZE_MOD ∧
    ((Clogger.ctor []).m_head = (Clogger.ctor []).m_tail →
      ((Clogger.ctor []).drops [97] = false ↔ ([97] : List UInt8).length ≤ RING_SIZE - 10)) :=
  ⟨by rw [SIZE_MOD_eq]; decide,
    (largest_accepted_record (Clogger.ctor []) [97] (by rw [SIZE_MOD_eq]; decide)).2.2.1⟩
